import Mathlib

/-!
Verification of the document-to-structured-content pipeline of the Booksy
study-assistant application (source: `src/services/geminiService.ts`).

The TypeScript source is shallowly embedded: strings are `List Char`, JSON
values are the inductive `Json` (with numbers restricted to integers, since
no claim touches fractional numbers), fallible operations return `Option`,
and the remote generative-model service is a parameter: each embedded entry
point takes the sequence of outcomes the remote calls would produce.
JavaScript's `JSON.parse` is modelled by the executable `jparse` below,
following ECMA-404 (integer numbers only; fractional and exponent forms are
rejected rather than represented, which no claim exercises).
-/

/-! ## Character classes and basic string helpers -/

/-- Whitespace for JavaScript's `String.prototype.trim` and the regex class
`\s` (ECMA-262 WhiteSpace plus LineTerminator): space, tab, newline,
carriage return, vertical tab, form feed, no-break space, Ogham space mark,
the U+2000 to U+200A spaces, line separator, paragraph separator, narrow
no-break space, medium mathematical space, ideographic space, and the
zero-width no-break space. -/
def isJsWsChar (c : Char) : Bool :=
  c = ' ' || c = '\t' || c = '\n' || c = '\x0d' || c = '\x0b' || c = '\x0c'
    || c = '\xa0' || c = '\u1680' || ('\u2000' ≤ c && c ≤ '\u200a')
    || c = '\u2028' || c = '\u2029' || c = '\u202f' || c = '\u205f'
    || c = '\u3000' || c = '\ufeff'

/-- Whitespace admitted by ECMA-404 JSON between tokens: space, tab,
newline, carriage return. -/
def isJsonWsChar (c : Char) : Bool :=
  c = ' ' || c = '\t' || c = '\n' || c = '\x0d'

/-- Word characters of the JavaScript regex class `\w`. -/
def isWordChar (c : Char) : Bool :=
  ( 'a' ≤ c && c ≤ 'z') || ( 'A' ≤ c && c ≤ 'Z') || ( '0' ≤ c && c ≤ '9') || c = '_'

/-- Decimal digit characters. -/
def isDigitChar (c : Char) : Bool :=
  '0' ≤ c && c ≤ '9'

/-- The opening-brace character. -/
def obrace : Char := '\x7b'

/-- The closing-brace character. -/
def cbrace : Char := '\x7d'

/-- Is the character a JSON structural opener, `[` or the opening brace. -/
def isOpener (c : Char) : Bool :=
  c = '[' || c = obrace

/-- Is the character a JSON structural closer, `]` or the closing brace. -/
def isCloser (c : Char) : Bool :=
  c = ']' || c = cbrace

/-- Drop trailing characters satisfying `p` (used for the right half of
`String.prototype.trim` and for the regex tail `\s*` before a closing
fence). -/
def dropTrailWhile (p : Char → Bool) (l : List Char) : List Char :=
  (l.reverse.dropWhile p).reverse

/-- JavaScript `String.prototype.trim`. -/
def trimChars (l : List Char) : List Char :=
  dropTrailWhile isJsWsChar (l.dropWhile isJsWsChar)

/-! ## The JSON data model

JavaScript values decoded by `JSON.parse` are modelled structurally; an
object is its field list in textual order. -/

/-- A JSON value. Numbers are modelled as integers. -/
inductive Json where
  | jnull : Json
  | jbool (b : Bool) : Json
  | jnum (n : Int) : Json
  | jstr (s : List Char) : Json
  | jarr (xs : List Json) : Json
  | jobj (kvs : List (List Char × Json)) : Json


/-! ## Printing JSON values

The serializer mirrors `JSON.stringify`: no insignificant whitespace,
strings escaped with the two-character escapes for quote, backslash and the
named control characters, and `\u00XX` for the remaining control
characters. -/

/-- Lowercase hexadecimal digit for `n < 16`. -/
def hexDigitChar (n : Nat) : Char :=
  if n < 10 then Char.ofNat (48 + n) else Char.ofNat (87 + n)

/-- Escape one character as `JSON.stringify` does. -/
def escChar (c : Char) : List Char :=
  if c = '"' then ['\\', '"']
  else if c = '\\' then ['\\', '\\']
  else if c = '\x08' then ['\\', 'b']
  else if c = '\t' then ['\\', 't']
  else if c = '\n' then ['\\', 'n']
  else if c = '\x0c' then ['\\', 'f']
  else if c = '\x0d' then ['\\', 'r']
  else if c.toNat < 32 then
    ['\\', 'u', '0', '0', hexDigitChar (c.toNat / 16), hexDigitChar (c.toNat % 16)]
  else [c]

/-- Escape a string body as `JSON.stringify` does. -/
def escStr : List Char → List Char
  | [] => []
  | c :: r => escChar c ++ escStr r

/-- Decimal digits of `n`, most significant first, by fuelled division;
`natDigitsAux fuel n` is correct whenever `n ≤ fuel`. -/
def natDigitsAux : Nat → Nat → List Char
  | 0, _ => []
  | fuel + 1, n =>
    if n = 0 then [] else natDigitsAux fuel (n / 10) ++ [Char.ofNat (48 + n % 10)]

/-- Decimal rendering of a natural number. -/
def renderNat (n : Nat) : List Char :=
  if n = 0 then ['0'] else natDigitsAux n n

/-- Decimal rendering of an integer, as `JSON.stringify` prints an integral
number. -/
def renderInt (n : Int) : List Char :=
  if n < 0 then '-' :: renderNat n.natAbs else renderNat n.toNat

mutual

/-- Serialize a JSON value as `JSON.stringify` does. -/
def jrender : Json → List Char
  | .jnull => [ 'n', 'u', 'l', 'l']
  | .jbool true => [ 't', 'r', 'u', 'e']
  | .jbool false => [ 'f', 'a', 'l', 's', 'e']
  | .jnum n => renderInt n
  | .jstr s => '"' :: escStr s ++ ['"']
  | .jarr xs => '[' :: jrenderElems xs ++ [']']
  | .jobj kvs => obrace :: jrenderMems kvs ++ [cbrace]

/-- Serialize the comma-separated element list of an array. -/
def jrenderElems : List Json → List Char
  | [] => []
  | [x] => jrender x
  | x :: y :: rest => jrender x ++ ',' :: jrenderElems (y :: rest)

/-- Serialize the comma-separated member list of an object. -/
def jrenderMems : List (List Char × Json) → List Char
  | [] => []
  | [(k, v)] => '"' :: escStr k ++ '"' :: ':' :: jrender v
  | (k, v) :: m :: rest =>
    '"' :: escStr k ++ '"' :: ':' :: jrender v ++ ',' :: jrenderMems (m :: rest)

end

/-! ## The model of `JSON.parse`

A fuelled recursive-descent parser for ECMA-404 JSON with integral numbers.
Fuel only bounds the recursion depth; `jparse` hands it enough fuel for any
input. Structural recursion on the fuel keeps every definition kernel-
reducible, so concrete inputs evaluate by `decide`. -/

/-- Numeric value of a hexadecimal digit character. -/
def hexVal (c : Char) : Option Nat :=
  if isDigitChar c then some (c.toNat - 48)
  else if 'a' ≤ c && c ≤ 'f' then some (c.toNat - 87)
  else if 'A' ≤ c && c ≤ 'F' then some (c.toNat - 55)
  else none

/-- Parse the body of a JSON string after the opening quote, returning the
decoded characters and the remainder after the closing quote. Escape
sequences follow ECMA-404; unescaped control characters are rejected. -/
def parseStrRest : List Char → Option (List Char × List Char)
  | [] => none
  | c :: r =>
    if c = '"' then some ([], r)
    else if c = '\\' then
      match r with
      | [] => none
      | e :: r2 =>
        if e = '"' then (parseStrRest r2).map (fun p => ( '"' :: p.1, p.2))
        else if e = '\\' then (parseStrRest r2).map (fun p => ( '\\' :: p.1, p.2))
        else if e = '/' then (parseStrRest r2).map (fun p => ( '/' :: p.1, p.2))
        else if e = 'n' then (parseStrRest r2).map (fun p => ( '\n' :: p.1, p.2))
        else if e = 't' then (parseStrRest r2).map (fun p => ( '\t' :: p.1, p.2))
        else if e = 'r' then (parseStrRest r2).map (fun p => ( '\x0d' :: p.1, p.2))
        else if e = 'b' then (parseStrRest r2).map (fun p => ( '\x08' :: p.1, p.2))
        else if e = 'f' then (parseStrRest r2).map (fun p => ( '\x0c' :: p.1, p.2))
        else if e = 'u' then
          match r2 with
          | h1 :: h2 :: h3 :: h4 :: r3 =>
            match hexVal h1, hexVal h2, hexVal h3, hexVal h4 with
            | some a, some b, some c2, some d =>
              let code := ((a * 16 + b) * 16 + c2) * 16 + d
              if code.isValidChar then
                (parseStrRest r3).map (fun p => (Char.ofNat code :: p.1, p.2))
              else none
            | _, _, _, _ => none
          | _ => none
        else none
    else if 32 ≤ c.toNat then (parseStrRest r).map (fun p => (c :: p.1, p.2))
    else none

/-- Numeric value of a list of decimal digit characters. -/
def parseNatVal (ds : List Char) : Nat :=
  ds.foldl (fun a c => a * 10 + (c.toNat - 48)) 0

/-- Does the remainder start with a character that would extend a number
into a form outside the integral fragment. -/
def numStop : List Char → Bool
  | [] => false
  | c :: _ => c = '.' || c = 'e' || c = 'E'

/-- Parse a nonnegative integral JSON number from the head of the input.
Leading zeros are rejected as in ECMA-404; a following fraction or exponent
marker makes the input fall outside the integral fragment this model
represents, and is rejected. -/
def parseNumRest (s : List Char) : Option (Nat × List Char) :=
  let ds := s.takeWhile isDigitChar
  let rest := s.drop ds.length
  if ds = [] then none
  else if 2 ≤ ds.length ∧ ds.head? = some '0' then none
  else if numStop rest then none
  else some (parseNatVal ds, rest)

/-- Parsing mode of the fuelled parser: a value, the tail of an array
element list, or the tail of an object member list. -/
inductive PMode where
  | pv : PMode
  | pe : PMode
  | pm : PMode

/-- Intermediate parse result for each mode. -/
inductive PRes where
  | rv (v : Json) : PRes
  | re (xs : List Json) : PRes
  | rm (kvs : List (List Char × Json)) : PRes

/-- The fuelled recursive-descent JSON parser. -/
def parseP : Nat → PMode → List Char → Option (PRes × List Char)
  | 0, _, _ => none
  | fuel + 1, .pv, s =>
    match s.dropWhile isJsonWsChar with
    | [] => none
    | c :: r =>
      if c = 'n' then
        match r with
        | 'u' :: 'l' :: 'l' :: r2 => some (.rv .jnull, r2)
        | _ => none
      else if c = 't' then
        match r with
        | 'r' :: 'u' :: 'e' :: r2 => some (.rv (.jbool true), r2)
        | _ => none
      else if c = 'f' then
        match r with
        | 'a' :: 'l' :: 's' :: 'e' :: r2 => some (.rv (.jbool false), r2)
        | _ => none
      else if c = '"' then (parseStrRest r).map (fun p => (.rv (.jstr p.1), p.2))
      else if c = '[' then
        match r.dropWhile isJsonWsChar with
        | [] => none
        | d :: r2 =>
          if d = ']' then some (.rv (.jarr []), r2)
          else
            match parseP fuel .pe (d :: r2) with
            | some (.re xs, r3) => some (.rv (.jarr xs), r3)
            | _ => none
      else if c = obrace then
        match r.dropWhile isJsonWsChar with
        | [] => none
        | d :: r2 =>
          if d = cbrace then some (.rv (.jobj []), r2)
          else
            match parseP fuel .pm (d :: r2) with
            | some (.rm kvs, r3) => some (.rv (.jobj kvs), r3)
            | _ => none
      else if c = '-' then
        match parseNumRest r with
        | some (m, r2) => some (.rv (.jnum (-(m : Int))), r2)
        | none => none
      else if isDigitChar c then
        match parseNumRest (c :: r) with
        | some (m, r2) => some (.rv (.jnum (m : Int)), r2)
        | none => none
      else none
  | fuel + 1, .pe, s =>
    match parseP fuel .pv s with
    | some (.rv v, r) =>
      match r.dropWhile isJsonWsChar with
      | [] => none
      | d :: r2 =>
        if d = ',' then
          match parseP fuel .pe r2 with
          | some (.re xs, r3) => some (.re (v :: xs), r3)
          | _ => none
        else if d = ']' then some (.re [v], r2)
        else none
    | _ => none
  | fuel + 1, .pm, s =>
    match s.dropWhile isJsonWsChar with
    | [] => none
    | c :: r =>
      if c = '"' then
        match parseStrRest r with
        | some (k, r1) =>
          match r1.dropWhile isJsonWsChar with
          | [] => none
          | d :: r3 =>
            if d = ':' then
              match parseP fuel .pv r3 with
              | some (.rv v, r4) =>
                match r4.dropWhile isJsonWsChar with
                | [] => none
                | e :: r6 =>
                  if e = ',' then
                    match parseP fuel .pm r6 with
                    | some (.rm kvs, r7) => some (.rm ((k, v) :: kvs), r7)
                    | _ => none
                  else if e = cbrace then some (.rm [(k, v)], r6)
                  else none
              | _ => none
            else none
        | none => none
      else none

/-- The model of `JSON.parse`: parse one value and require only whitespace
to follow. The fuel `2 * length + 4` exceeds what any input can consume. -/
def jparse (s : List Char) : Option Json :=
  match parseP (2 * s.length + 4) .pv s with
  | some (.rv v, r) => if r.dropWhile isJsonWsChar = [] then some v else none
  | _ => none

/-! ## The response sanitizer `parseJsonResponse`

Model of `parseJsonResponse` from `src/services/geminiService.ts`: trim,
unwrap a markdown code fence, slice from the first structural opener to the
last structural closer (with `String.prototype.substring` swapping its
bounds when given in reverse order), repair trailing commas, then decode
with `JSON.parse`. -/

/-- One left-to-right pass of the global replacement
`replace(/,\s*([}\]])/g, "$1")`: a comma followed by whitespace and a
structural closer is replaced by the closer alone, and scanning resumes
after the closer. Fuelled to stay kernel-reducible; `length` fuel always
suffices since each step consumes at least one character. -/
def cleanupCommasF : Nat → List Char → List Char
  | 0, l => l
  | _ + 1, [] => []
  | fuel + 1, c :: rest =>
    if c = ',' then
      match rest.drop (rest.takeWhile isJsWsChar).length with
      | d :: r3 =>
        if isCloser d then d :: cleanupCommasF fuel r3 else c :: cleanupCommasF fuel rest
      | [] => c :: cleanupCommasF fuel rest
    else c :: cleanupCommasF fuel rest

/-- The trailing-comma repair applied by `parseJsonResponse` before
decoding. -/
def cleanupCommas (l : List Char) : List Char :=
  cleanupCommasF l.length l

/-- Three backticks, the markdown fence delimiter. -/
def fenceTicks : List Char := ("```").data

/-- Capture group 2 of `/^```(\w*)?\s*\n?(.*?)\n?\s*```$/s` when the regex
matches, and `none` when it does not. The regex matches exactly when the
string starts and ends with distinct triple backticks; with the `s` flag
the lazy middle group matches anything, the greedy `(\w*)?\s*` prefix takes
the maximal word-character run then the maximal whitespace run, and the
minimal-length middle leaves the maximal whitespace suffix to `\n?\s*`. -/
def fenceInner (s : List Char) : Option (List Char) :=
  if 6 ≤ s.length ∧ s.take 3 = fenceTicks ∧ s.drop (s.length - 3) = fenceTicks then
    some (dropTrailWhile isJsWsChar
      ((((s.drop 3).take (s.length - 6)).dropWhile isWordChar).dropWhile isJsWsChar))
  else none

/-- Index of the last structural closer in the list, as computed by
`Math.max(lastIndexOf(']'), lastIndexOf(cbrace))`. -/
def lastCloserIdx (l : List Char) : Option Nat :=
  (l.reverse.findIdx? isCloser).map (fun k => l.length - 1 - k)

/-- The fence-unwrapping step: a matched fence's group 2 replaces the
input only when non-empty, mirroring the truthiness test
`fenceMatch && fenceMatch[2]`, and is trimmed as `fenceMatch[2].trim()`. -/
def unfence (j0 : List Char) : List Char :=
  match fenceInner j0 with
  | some g2 => if g2 = [] then j0 else trimChars g2
  | none => j0

/-- The slicing step: the substring from the first structural opener to
the last structural closer, via `substring(start, end + 1)`, which swaps
its bounds when given in reverse order; `none` when either index is
missing. -/
def extractSlice (j1 : List Char) : Option (List Char) :=
  match j1.findIdx? isOpener with
  | none => none
  | some start =>
    match lastCloserIdx j1 with
    | none => none
    | some e =>
      some ((j1.drop (min start (e + 1))).take (max start (e + 1) - min start (e + 1)))

/-- The response sanitizer/parser `parseJsonResponse`. Returns the decoded
value or `none`; it is a total function, mirroring the source's guarantee
of never raising. The empty string is rejected by the falsiness guard
`!text`. -/
def parseJsonResponse (text : List Char) : Option Json :=
  if text = [] then none
  else
    match extractSlice (unfence (trimChars text)) with
    | none => none
    | some body => jparse (cleanupCommas body)

/-! ## The resilient remote-call wrapper `callApiWithRetry`

The wrapped `apiCall` is modelled as the sequence of outcomes its
successive invocations would produce. The wrapper's execution is summarised
as a trace: the final result (a returned value or a thrown error message),
the number of invocations, and the list of backoff delays slept between
consecutive invocations. -/

/-- Outcome of one invocation of a wrapped operation: a returned value or a
thrown error carrying its message. -/
inductive Outcome (T : Type) where
  | success (t : T) : Outcome T
  | failure (msg : List Char) : Outcome T

/-- Does `pat` occur contiguously in the list, as
`String.prototype.includes` tests. -/
def containsSub (pat : List Char) : List Char → Bool
  | [] => pat.isEmpty
  | c :: r => pat.isPrefixOf (c :: r) || containsSub pat r

/-- The transient server-fault signature tested by the wrapper. -/
def serverFaultSig : List Char := ("500 INTERNAL").data

/-- The classification `error.message && error.message.includes('500
INTERNAL')`. -/
def isServerError (msg : List Char) : Bool :=
  containsSub serverFaultSig msg

/-- Result of the retry wrapper: the value returned, or the message of the
error thrown. -/
inductive RetryResult (T : Type) where
  | ok (t : T) : RetryResult T
  | thrown (msg : List Char) : RetryResult T

/-- Execution trace of the retry wrapper. -/
structure RetryTrace (T : Type) where
  result : RetryResult T
  calls : Nat
  delays : List Nat

/-- Message of the synthetic error thrown after the loop. -/
def maxRetriesMsg : List Char := ("API call failed after maximum retries.").data

/-- The loop of `callApiWithRetry`: `remaining` counts loop iterations
still allowed (the loop condition `attempt < maxRetries`), `idx` is the
zero-based index of the invocation made in this iteration; after a failure
the incremented attempt counter is `idx + 1`, which is what the retry guard
compares and what scales the backoff delay `1000 * attempt`. -/
def callApiWithRetryGo {T : Type} (apiCall : Nat → Outcome T) (maxRetries : Nat) :
    Nat → Nat → RetryTrace T
  | 0, _ => ⟨.thrown maxRetriesMsg, 0, []⟩
  | remaining + 1, idx =>
    match apiCall idx with
    | .success t => ⟨.ok t, 1, []⟩
    | .failure e =>
      if isServerError e = true ∧ idx + 1 < maxRetries then
        let tr := callApiWithRetryGo apiCall maxRetries remaining (idx + 1)
        ⟨tr.result, tr.calls + 1, 1000 * (idx + 1) :: tr.delays⟩
      else ⟨.thrown e, 1, []⟩

/-- The retry wrapper `callApiWithRetry` (the source's default
`maxRetries` is 3; callers of the model pass it explicitly). -/
def callApiWithRetry {T : Type} (apiCall : Nat → Outcome T) (maxRetries : Nat) :
    RetryTrace T :=
  callApiWithRetryGo apiCall maxRetries maxRetries 0

/-! ## The document structure analyzer

`analyzeDocumentStructure` builds its prompt, calls the model through the
retry wrapper, decodes the response with `parseJsonResponse` and an
unchecked cast to a chapter array, reconciles page ranges, and falls back
to a single whole-document chapter. The decode-and-cast of each response is
modelled by the attempt's decoded value (`none` when `parseJsonResponse`
returned null). `generateUniqueId` is modelled as a fresh positional
identifier; no claim concerns the identifier values. -/

/-- A page of extracted text. -/
structure PageText where
  pageNumber : Int
  text : List Char
deriving DecidableEq

/-- A chapter as decoded from the model, before an id is assigned. -/
structure RawChapter where
  title : List Char
  startPage : Int
  endPage : Int
deriving DecidableEq

/-- A chapter after id assignment. -/
structure Chapter where
  id : Nat
  title : List Char
  startPage : Int
  endPage : Int
deriving DecidableEq

/-- The overlap-clamping loop: for each `i` below `length - 1`, if
`endPage i ≥ startPage (i+1)` then `endPage i` is set to
`startPage (i+1) - 1`. Only `endPage` fields are written and only the
successor's `startPage` is read, so the in-place loop is this map. -/
def clampPass : List RawChapter → List RawChapter
  | [] => []
  | [c] => [c]
  | c :: d :: rest =>
    (if d.startPage ≤ c.endPage then { c with endPage := d.startPage - 1 } else c)
      :: clampPass (d :: rest)

/-- The assignment `rawChapters[rawChapters.length - 1].endPage =
totalPages`. -/
def setLastEnd (total : Int) : List RawChapter → List RawChapter
  | [] => []
  | [c] => [{ c with endPage := total }]
  | c :: d :: rest => c :: setLastEnd total (d :: rest)

/-- Id assignment for chapters, positional. -/
def assignChapterIds : Nat → List RawChapter → List Chapter
  | _, [] => []
  | i, c :: rest => ⟨i, c.title, c.startPage, c.endPage⟩ :: assignChapterIds (i + 1) rest

/-- The validity filter `c.startPage <= totalPages && c.startPage > 0 &&
c.endPage >= c.startPage`. -/
def validChapter (total : Int) (c : Chapter) : Bool :=
  decide (c.startPage ≤ total) && decide (0 < c.startPage) && decide (c.startPage ≤ c.endPage)

/-- Range reconciliation and filtering applied to a non-empty decoded
chapter list. -/
def normalizeChapters (cs : List RawChapter) (total : Int) : List Chapter :=
  (assignChapterIds 0 (setLastEnd total (clampPass cs))).filter (validChapter total)

/-- The synthetic whole-document chapter. -/
def fallbackChapter (total : Int) : Chapter :=
  ⟨0, ("Full Document").data, 1, total⟩

/-- Body of the analyzer's `apiCall` after decoding: a truthy, non-empty
chapter array is normalized; anything else yields the fallback chapter. -/
def structureFromRaw (raw : Option (List RawChapter)) (total : Int) : List Chapter :=
  match raw with
  | some (c :: cs) => normalizeChapters (c :: cs) total
  | _ => [fallbackChapter total]

/-- The analyzer `analyzeDocumentStructure` on a page list, with the
remote call sequence as a parameter (each element: a thrown failure or the
decoded chapter list of a delivered response). Models the body after
`getAi()` has succeeded. The result type mirrors the declared
`Chapter[] | null`: every return site of the source returns an array, which
the model records by returning `some`. -/
def analyzeDocumentStructure (calls : Nat → Outcome (Option (List RawChapter)))
    (pages : List PageText) : Option (List Chapter) :=
  let total : Int := pages.length
  let tr := callApiWithRetry (fun i =>
    match calls i with
    | .success raw => Outcome.success (structureFromRaw raw total)
    | .failure e => Outcome.failure e) 3
  match tr.result with
  | .ok cs => some cs
  | .thrown _ => some [fallbackChapter total]

/-! ## Interactive blocks and `assignIdsToBlocks`

A decoded block is the raw JSON element itself; `assignIdsToBlocks` spreads
it and adds a fresh id (`content.map(block => ({...block, id}))`), modelled
positionally. The JavaScript truthiness of decoded values and the
duck-typed access to a block's `type` field are modelled explicitly. -/

/-- JavaScript truthiness of a decoded JSON value. -/
def jsTruthy : Json → Bool
  | .jnull => false
  | .jbool b => b
  | .jnum n => decide (n ≠ 0)
  | .jstr s => decide (s ≠ [])
  | .jarr _ => true
  | .jobj _ => true

/-- Property access on a decoded JSON value; `JSON.parse` keeps the last of
a repeated key, which lookup mirrors by taking the last match. -/
def jsGetField (j : Json) (k : List Char) : Option Json :=
  match j with
  | .jobj kvs => ((kvs.filter (fun kv => kv.1 == k)).getLast?).map (fun kv => kv.2)
  | _ => none

/-- The `type` tag of a decoded block, when it is a string. -/
def blockTypeTag (j : Json) : Option (List Char) :=
  match jsGetField j (("type").data) with
  | some (.jstr s) => some s
  | _ => none

/-- The six block type tags the rendering layer knows. -/
def knownBlockTypes : List (List Char) :=
  [("explanation").data, ("math_formula").data, ("multiple_choice_question").data,
   ("true_false_question").data, ("fill_in_the_blank_question").data,
   ("open_ended_question").data]

/-- A decoded block with its assigned id. -/
structure IdBlock where
  id : Nat
  body : Json

/-- Positional id assignment for `assignIdsToBlocks`. -/
def assignIdsToBlocksGo : Nat → List Json → List IdBlock
  | _, [] => []
  | i, b :: rest => ⟨i, b⟩ :: assignIdsToBlocksGo (i + 1) rest

/-- The normalizer `assignIdsToBlocks`: a plain map that spreads each block
and adds an id. -/
def assignIdsToBlocks (content : List Json) : List IdBlock :=
  assignIdsToBlocksGo 0 content

/-! ## `generateInitialQuestions`

The parse-failure retry loop: up to three attempts, each delivering either
a thrown error or a response text; a response whose `parseJsonResponse`
decode is truthy returns `assignIdsToBlocks` of it (a decoded non-array
would make `content.map` throw inside the same `try`, which lands in the
catch and also falls through to the retry); otherwise the loop sleeps
`500 * (attempt + 1)` when another attempt remains. -/

/-- One attempt of the question-generation loop as seen by the model: the
remote call throws, or delivers a response text. -/
inductive GenAttempt where
  | throwErr (msg : List Char) : GenAttempt
  | respond (text : List Char) : GenAttempt

/-- Execution trace of `generateInitialQuestions`. -/
structure GenTrace where
  result : Option (List IdBlock)
  calls : Nat
  delays : List Nat

/-- The loop of `generateInitialQuestions`; `remaining` counts iterations
left of the bound of 3, `idx` the zero-based attempt index. -/
def generateInitialQuestionsGo (attempts : Nat → GenAttempt) :
    Nat → Nat → GenTrace
  | 0, _ => ⟨none, 0, []⟩
  | remaining + 1, idx =>
    let next :=
      let tr := generateInitialQuestionsGo attempts remaining (idx + 1)
      GenTrace.mk tr.result (tr.calls + 1) ((if idx < 2 then [500 * (idx + 1)] else []) ++ tr.delays)
    match attempts idx with
    | .throwErr _ => next
    | .respond s =>
      match parseJsonResponse s with
      | none => next
      | some j =>
        if jsTruthy j then
          match j with
          | .jarr bs => ⟨some (assignIdsToBlocks bs), 1, []⟩
          | _ => next
        else next

/-- The question generator `generateInitialQuestions`, with the remote
attempt sequence as a parameter. -/
def generateInitialQuestions (attempts : Nat → GenAttempt) : GenTrace :=
  generateInitialQuestionsGo attempts 3 0

/-! ## `getFeedbackOnAnswers`

Typed question blocks, answer values, and the pairing of submitted answers
with their questions, as computed before the grading prompt is built. -/

/-- A submitted answer's value: `number | boolean | string | string[]`. -/
inductive AnswerVal where
  | anum (n : Int) : AnswerVal
  | astr (s : List Char) : AnswerVal
  | abool (b : Bool) : AnswerVal
  | aarr (xs : List (List Char)) : AnswerVal
deriving DecidableEq

/-- A submitted answer. -/
structure UserAnswer where
  questionId : List Char
  answer : AnswerVal
deriving DecidableEq

/-- A typed interactive block, as the feedback path receives them. -/
inductive QBlock where
  | explanation (id : List Char) (text : List Char) : QBlock
  | mathFormula (id : List Char) (latex : List Char) : QBlock
  | multipleChoice (id : List Char) (question : List Char)
      (options : List (List Char)) (correctAnswerIndex : Int) : QBlock
  | trueFalse (id : List Char) (question : List Char) (correctAnswer : Bool) : QBlock
  | fillInTheBlank (id : List Char) (questionParts : List (List Char))
      (correctAnswers : List (List Char)) : QBlock
  | openEnded (id : List Char) (question : List Char) : QBlock
deriving DecidableEq

/-- The id of a typed block. -/
def QBlock.qid : QBlock → List Char
  | .explanation i _ => i
  | .mathFormula i _ => i
  | .multipleChoice i _ _ _ => i
  | .trueFalse i _ _ => i
  | .fillInTheBlank i _ _ => i
  | .openEnded i _ => i

/-- The `type` tag of a typed block. -/
def QBlock.typeTag : QBlock → List Char
  | .explanation _ _ => ("explanation").data
  | .mathFormula _ _ => ("math_formula").data
  | .multipleChoice _ _ _ _ => ("multiple_choice_question").data
  | .trueFalse _ _ _ => ("true_false_question").data
  | .fillInTheBlank _ _ _ => ("fill_in_the_blank_question").data
  | .openEnded _ _ => ("open_ended_question").data

/-- The suffix that identifies question blocks. -/
def questionSuffix : List Char := ("_question").data

/-- JavaScript truthiness of an answer value. -/
def answerTruthy : AnswerVal → Bool
  | .anum n => decide (n ≠ 0)
  | .astr s => decide (s ≠ [])
  | .abool b => b
  | .aarr _ => true

/-- Joining a list of strings with a separator, as `Array.prototype.join`
does. -/
def joinWith (sep : List Char) : List (List Char) → List Char
  | [] => []
  | [x] => x
  | x :: y :: rest => x ++ sep ++ joinWith sep (y :: rest)

/-- JavaScript `String(answer)`. -/
def answerToString : AnswerVal → List Char
  | .anum n => renderInt n
  | .astr s => s
  | .abool true => ("true").data
  | .abool false => ("false").data
  | .aarr xs => joinWith ([',']) xs

/-- One question-and-answer pair sent to the grading prompt. -/
structure QaPair where
  questionId : List Char
  question : List Char
  userAnswer : List Char
  correctAnswer : Option (List Char)
deriving DecidableEq

/-- Resolution of one submitted answer against the supplied blocks: find
the block with the answer's `questionId`; drop the answer when none
matches, when the matched block's type does not end in `_question`, when
the computed question text is falsy (empty), or when the computed user-
answer text is `undefined` (a numeric multiple-choice answer indexing
outside `options`). -/
def mkQaPair (allQuestions : List QBlock) (ua : UserAnswer) : Option QaPair :=
  match allQuestions.find? (fun q => q.qid == ua.questionId) with
  | none => none
  | some qb =>
    if questionSuffix.isSuffixOf qb.typeTag then
      match qb with
      | .multipleChoice _ q opts idx =>
        let uat : Option (List Char) :=
          match ua.answer with
          | .anum n => if 0 ≤ n then opts.get? n.toNat else none
          | _ => some (("N/A").data)
        match uat with
        | none => none
        | some t =>
          if q = [] then none
          else some ⟨ua.questionId, q, t, if 0 ≤ idx then opts.get? idx.toNat else none⟩
      | .openEnded _ q =>
        if q = [] then none
        else
          some ⟨ua.questionId, q, answerToString ua.answer,
            some (("This is an open-ended question. Evaluate the answer's logic and relevance to the question.").data)⟩
      | .trueFalse _ q correct =>
        if q = [] then none
        else
          some ⟨ua.questionId, q,
            (if answerTruthy ua.answer then ("True").data else ("False").data),
            some (if correct then ("True").data else ("False").data)⟩
      | .fillInTheBlank _ parts answers =>
        let q := joinWith ((" [blank] ").data) parts
        let uat : List Char :=
          match ua.answer with
          | .aarr xs =>
            joinWith ((", ").data) (xs.map (fun a => if a = [] then ("empty").data else a))
          | _ => ("N/A").data
        if q = [] then none
        else some ⟨ua.questionId, q, uat, some (joinWith ((", ").data) answers)⟩
      | _ => none
    else none

/-- The gradable pairs: `userAnswers.map(...).filter(Boolean)`. -/
def qaPairsForAI (userAnswers : List UserAnswer) (allQuestions : List QBlock) :
    List QaPair :=
  userAnswers.filterMap (mkQaPair allQuestions)

/-- A feedback item as decoded from the model. -/
structure FeedbackRaw where
  questionId : List Char
  isCorrect : Bool
  explanation : List Char
deriving DecidableEq

/-- A feedback item after augmentation with the original question and
answer texts. -/
structure FeedbackItem where
  questionId : List Char
  isCorrect : Bool
  explanation : List Char
  question : Option (List Char)
  userAnswer : Option (List Char)
deriving DecidableEq

/-- The feedback entry point `getFeedbackOnAnswers`, with the remote call
sequence as a parameter (each element: a thrown failure, or the decoded
feedback list of a delivered response, `none` when `parseJsonResponse`
returned null). The boolean records whether the remote service was
contacted. -/
def getFeedbackOnAnswers (userAnswers : List UserAnswer) (allQuestions : List QBlock)
    (calls : Nat → Outcome (Option (List FeedbackRaw))) :
    Option (List FeedbackItem) × Bool :=
  let pairs := qaPairsForAI userAnswers allQuestions
  if pairs = [] then (some [], false)
  else
    let tr := callApiWithRetry (fun i =>
      match calls i with
      | .failure e => Outcome.failure e
      | .success none => Outcome.success none
      | .success (some fbs) => Outcome.success (some (fbs.map (fun fb =>
          let orig := pairs.find? (fun p => p.questionId == fb.questionId)
          FeedbackItem.mk fb.questionId fb.isCorrect fb.explanation
            (orig.map (fun p => p.question)) (orig.map (fun p => p.userAnswer)))))) 3
    match tr.result with
    | .ok v => (v, true)
    | .thrown _ => (none, true)

/-! ## Size measure and boundary predicate (for the round-trip proof) -/

/-- Does the remainder begin with a character that cannot extend a
rendered number: used as the context hypothesis of the round-trip
lemmas. -/
def numBoundary : List Char → Bool
  | [] => true
  | c :: _ => !(isDigitChar c) && !(c = '.') && !(c = 'e') && !(c = 'E')

mutual

/-- Size of a JSON value, the induction measure of the round-trip proof. -/
def jsize : Json → Nat
  | .jnull => 1
  | .jbool _ => 1
  | .jnum _ => 1
  | .jstr _ => 1
  | .jarr xs => 1 + jsizeL xs
  | .jobj kvs => 1 + jsizeM kvs

/-- Size of an array's element list. -/
def jsizeL : List Json → Nat
  | [] => 0
  | x :: rest => jsize x + 1 + jsizeL rest

/-- Size of an object's member list. -/
def jsizeM : List (List Char × Json) → Nat
  | [] => 0
  | (_, v) :: rest => jsize v + 1 + jsizeM rest

end

/-- Is the value an object or an array (the top-level shapes the model is
asked for). -/
def isStructured : Json → Bool
  | .jarr _ => true
  | .jobj _ => true
  | _ => false

/-! ## Lemmas about the retry wrapper -/

theorem callApiWithRetryGo_calls_le {T : Type} (apiCall : Nat → Outcome T)
    (maxRetries : Nat) :
    ∀ r idx, (callApiWithRetryGo apiCall maxRetries r idx).calls ≤ r := by
  intro r
  induction r with
  | zero => intro idx; simp [callApiWithRetryGo]
  | succ n ih =>
    intro idx
    simp only [callApiWithRetryGo]
    cases apiCall idx with
    | success t => simp
    | failure e =>
      by_cases h : isServerError e = true ∧ idx + 1 < maxRetries
      · simp only [if_pos h]
        exact Nat.succ_le_succ (ih (idx + 1))
      · simp [if_neg h]

theorem callApiWithRetryGo_delays_chain {T : Type} (apiCall : Nat → Outcome T)
    (maxRetries : Nat) :
    ∀ r idx, List.Chain' (· < ·) (callApiWithRetryGo apiCall maxRetries r idx).delays
      ∧ ∀ d ∈ (callApiWithRetryGo apiCall maxRetries r idx).delays, 1000 * (idx + 1) ≤ d := by
  intro r
  induction r with
  | zero => intro idx; simp [callApiWithRetryGo]
  | succ n ih =>
    intro idx
    simp only [callApiWithRetryGo]
    cases apiCall idx with
    | success t => simp
    | failure e =>
      by_cases h : isServerError e = true ∧ idx + 1 < maxRetries
      · simp only [if_pos h]
        refine ⟨List.chain'_cons'.2 ⟨fun y hy => ?_, (ih (idx + 1)).1⟩, ?_⟩
        · have hm := (ih (idx + 1)).2 y (List.mem_of_mem_head? hy)
          omega
        · intro d hd
          rcases List.mem_cons.1 hd with h1 | h1
          · omega
          · have := (ih (idx + 1)).2 d h1
            omega
      · simp [if_neg h]

theorem callApiWithRetryGo_all_fail {T : Type} (apiCall : Nat → Outcome T)
    (maxRetries : Nat) (hf : ∀ i, ∃ e, apiCall i = Outcome.failure e) :
    ∀ r idx, ∃ msg, (callApiWithRetryGo apiCall maxRetries r idx).result = .thrown msg := by
  intro r
  induction r with
  | zero => intro idx; exact ⟨maxRetriesMsg, rfl⟩
  | succ n ih =>
    intro idx
    obtain ⟨e, he⟩ := hf idx
    simp only [callApiWithRetryGo, he]
    by_cases h : isServerError e = true ∧ idx + 1 < maxRetries
    · simpa [if_pos h] using ih (idx + 1)
    · exact ⟨e, by simp [if_neg h]⟩

theorem callApiWithRetryGo_provenance {T : Type} (apiCall : Nat → Outcome T)
    (maxRetries : Nat) :
    ∀ r idx, idx + r = maxRetries → 1 ≤ r →
      (∃ i v, i < maxRetries ∧ apiCall i = Outcome.success v ∧
        (callApiWithRetryGo apiCall maxRetries r idx).result = .ok v)
      ∨ (∃ i e, i < maxRetries ∧ apiCall i = Outcome.failure e ∧
        (callApiWithRetryGo apiCall maxRetries r idx).result = .thrown e) := by
  intro r
  induction r with
  | zero => intro idx _ h1; omega
  | succ n ih =>
    intro idx hinv _
    simp only [callApiWithRetryGo]
    cases hc : apiCall idx with
    | success t =>
      exact Or.inl ⟨idx, t, by omega, hc, rfl⟩
    | failure e =>
      by_cases h : isServerError e = true ∧ idx + 1 < maxRetries
      · have hn : 1 ≤ n := by omega
        rcases ih (idx + 1) (by omega) hn with ⟨i, v, hi, hv, hres⟩ | ⟨i, e2, hi, he2, hres⟩
        · exact Or.inl ⟨i, v, hi, hv, by simp [if_pos h, hres]⟩
        · exact Or.inr ⟨i, e2, hi, he2, by simp [if_pos h, hres]⟩
      · exact Or.inr ⟨idx, e, by omega, hc, by simp [if_neg h]⟩

/-- C4: `callApiWithRetry` with `maxRetries = 3` invokes the wrapped
operation exactly 3 times when every invocation fails with the transient
server-fault signature, and exactly once when the first invocation throws
a non-transient error; in every execution the operation is invoked at most
`maxRetries` times and the backoff delays between consecutive retries are
strictly increasing. -/
theorem C4_retry_invocation_counts (T : Type) (calls : Nat → Outcome T) :
    ((∀ i, ∃ e, calls i = Outcome.failure e ∧ isServerError e = true) →
      (callApiWithRetry calls 3).calls = 3)
    ∧ (∀ e, calls 0 = Outcome.failure e → isServerError e = false →
        (callApiWithRetry calls 3).calls = 1
        ∧ (callApiWithRetry calls 3).result = .thrown e)
    ∧ (∀ m, (callApiWithRetry calls m).calls ≤ m)
    ∧ (∀ m, List.Chain' (· < ·) (callApiWithRetry calls m).delays) := by
  refine ⟨?_, ?_, ?_, ?_⟩
  · intro hf
    obtain ⟨e0, he0, hs0⟩ := hf 0
    obtain ⟨e1, he1, hs1⟩ := hf 1
    obtain ⟨e2, he2, hs2⟩ := hf 2
    simp [callApiWithRetry, callApiWithRetryGo, he0, he1, he2, hs0, hs1, hs2]
  · intro e he hs
    constructor <;>
      simp [callApiWithRetry, callApiWithRetryGo, he, hs]
  · intro m
    exact callApiWithRetryGo_calls_le calls m m 0
  · intro m
    exact (callApiWithRetryGo_delays_chain calls m m 0).1

/-- Witness for C4 at concrete inputs: a constantly transiently-failing
operation is invoked exactly 3 times, and an operation whose first
invocation throws a non-transient error is invoked exactly once. -/
theorem C4_retry_invocation_counts_witness :
    (callApiWithRetry (fun _ => Outcome.failure (T := Nat) (("oops 500 INTERNAL").data)) 3).calls = 3
    ∧ (callApiWithRetry (fun _ => Outcome.failure (T := Nat) (("bad request").data)) 3).calls = 1 :=
  ⟨(C4_retry_invocation_counts Nat _).1 (fun _ => ⟨_, rfl, by decide⟩),
   ((C4_retry_invocation_counts Nat _).2.1 _ rfl (by decide)).1⟩

/-- C9: for every `maxRetries ≥ 1`, `callApiWithRetry` either returns the
value of a successful invocation of the wrapped operation or re-throws an
error the operation itself threw; the trailing synthetic error after the
loop is unreachable. -/
theorem C9_retry_result_provenance (T : Type) (calls : Nat → Outcome T)
    (maxRetries : Nat) (h : 1 ≤ maxRetries) :
    (∃ i v, i < maxRetries ∧ calls i = Outcome.success v ∧
      (callApiWithRetry calls maxRetries).result = .ok v)
    ∨ (∃ i e, i < maxRetries ∧ calls i = Outcome.failure e ∧
      (callApiWithRetry calls maxRetries).result = .thrown e) :=
  callApiWithRetryGo_provenance calls maxRetries maxRetries 0 (by omega) h

/-- Witness for C9 at a concrete input: with one allowed attempt and an
operation succeeding immediately, the wrapper reports a value returned by
the operation or an error thrown by it. -/
theorem C9_retry_result_provenance_witness :
    (∃ i v, i < 3 ∧ (fun _ => Outcome.success (42 : Nat)) i = Outcome.success v ∧
      (callApiWithRetry (fun _ => Outcome.success (42 : Nat)) 3).result = .ok v)
    ∨ (∃ i e, i < 3 ∧ (fun _ => Outcome.success (42 : Nat)) i = Outcome.failure e ∧
      (callApiWithRetry (fun _ => Outcome.success (42 : Nat)) 3).result = .thrown e) :=
  C9_retry_result_provenance Nat _ 3 (by omega)

/-! ## Claims about the generation loops and the analyzer's fallback -/

/-- C7: when `generateInitialQuestions` receives three consecutive
unparseable model responses it returns null rather than throwing, after
exactly 3 attempts, with a strictly increasing delay between consecutive
attempts (500ms then 1000ms). -/
theorem C7_generateInitialQuestions_three_parse_failures
    (attempts : Nat → GenAttempt)
    (h : ∀ i, i < 3 → ∃ s, attempts i = GenAttempt.respond s ∧ parseJsonResponse s = none) :
    generateInitialQuestions attempts = ⟨none, 3, [500, 1000]⟩
    ∧ List.Chain' (· < ·) [500, 1000] := by
  obtain ⟨s0, ha0, hp0⟩ := h 0 (by omega)
  obtain ⟨s1, ha1, hp1⟩ := h 1 (by omega)
  obtain ⟨s2, ha2, hp2⟩ := h 2 (by omega)
  refine ⟨?_, by norm_num [List.chain'_cons]⟩
  simp [generateInitialQuestions, generateInitialQuestionsGo, ha0, ha1, ha2, hp0, hp1, hp2]

/-- Witness for C7 at a concrete input: three responses with no JSON in
them yield a null result after 3 attempts and delays 500, 1000. -/
theorem C7_generateInitialQuestions_three_parse_failures_witness :
    generateInitialQuestions (fun _ => GenAttempt.respond (("no json here").data))
      = ⟨none, 3, [500, 1000]⟩
    ∧ List.Chain' (· < ·) [500, 1000] :=
  C7_generateInitialQuestions_three_parse_failures _
    (fun _ _ => ⟨_, rfl, rfl⟩)

/-- C3 counterexample: `assignIdsToBlocks` does not filter unknown type
tags. A model response consisting of one block whose `type` tag is the
unknown string `bogus` is parsed, given an id, and returned unchanged by
`generateInitialQuestions`, so a block with an unknown type tag does appear
in the returned content, contrary to the claim. -/
theorem C3_counterexample :
    (generateInitialQuestions
        (fun _ => GenAttempt.respond (("[\x7b\"type\":\"bogus\"\x7d]").data))).result
      = some [⟨0, Json.jobj [(("type").data, Json.jstr (("bogus").data))]⟩]
    ∧ blockTypeTag (Json.jobj [(("type").data, Json.jstr (("bogus").data))])
      = some (("bogus").data)
    ∧ (("bogus").data) ∉ knownBlockTypes := by
  refine ⟨rfl, rfl, by decide⟩

/-- C3 amended: `assignIdsToBlocks` assigns a fresh id to every decoded
block and preserves all blocks in order, including those whose `type` tag
is not one of the known variant strings; unknown tags are propagated to the
content returned by the generators, not dropped. -/
theorem C3_assignIdsToBlocks_preserves_blocks :
    ∀ content : List Json,
      (assignIdsToBlocks content).map (fun b => b.body) = content := by
  have go : ∀ (i : Nat) (content : List Json),
      (assignIdsToBlocksGo i content).map (fun b => b.body) = content := by
    intro i content
    induction content generalizing i with
    | nil => simp [assignIdsToBlocksGo]
    | cons b rest ih => simp [assignIdsToBlocksGo, ih]
  exact fun content => go 0 content

/-- C10: provided the AI client is initialized (the model covers the body
after `getAi()` has returned), `analyzeDocumentStructure` never returns
null on any execution path: both the in-call fallback and the catch
handler after exhausted retries return a chapter array, despite the
declared `Chapter[] | null` return type. -/
theorem C10_analyze_never_null
    (calls : Nat → Outcome (Option (List RawChapter))) (pages : List PageText) :
    (analyzeDocumentStructure calls pages).isSome = true := by
  unfold analyzeDocumentStructure
  cases h : (callApiWithRetry (fun i =>
    match calls i with
    | .success raw => Outcome.success (structureFromRaw raw (pages.length : Int))
    | .failure e => Outcome.failure e) 3).result with
  | ok cs => simp [h]
  | thrown e => simp [h]

/-- C6 counterexample: a successfully decoded, non-empty chapter list whose
only chapter has a non-positive `startPage` is filtered to an empty array,
so a structure analysis on a non-empty page set can return an empty chapter
list, contrary to the claim's consequence. -/
theorem C6_counterexample :
    analyzeDocumentStructure
        (fun _ => Outcome.success (some [⟨("X").data, 0, 5⟩]))
        [⟨1, ("a").data⟩, ⟨2, ("b").data⟩, ⟨3, ("c").data⟩]
      = some [] := by
  decide

/-- C6 amended: when parsing fails or the model returns zero chapters, the
analyzer's call body returns the single synthetic whole-document chapter
spanning page 1 to the total page count, and when every remote attempt
throws, the catch handler returns the same synthetic chapter; these
fallback results are non-empty, but a successfully decoded non-empty
chapter list may still be filtered to an empty result, so non-emptiness
does not extend to every analysis of a non-empty page set. -/
theorem C6_analyze_fallback
    (calls : Nat → Outcome (Option (List RawChapter))) (pages : List PageText)
    (raw : Option (List RawChapter)) (total : Int) :
    ((raw = none ∨ raw = some []) → structureFromRaw raw total = [fallbackChapter total])
    ∧ ((∀ i, ∃ e, calls i = Outcome.failure e) →
        analyzeDocumentStructure calls pages = some [fallbackChapter (pages.length : Int)]) := by
  constructor
  · rintro (rfl | rfl) <;> simp [structureFromRaw]
  · intro hf
    have hall : ∀ i, ∃ e, (fun i =>
        match calls i with
        | .success raw => Outcome.success (structureFromRaw raw (pages.length : Int))
        | .failure e => Outcome.failure e) i = Outcome.failure (T := List Chapter) e := by
      intro i
      obtain ⟨e, he⟩ := hf i
      exact ⟨e, by simp [he]⟩
    obtain ⟨msg, hmsg⟩ := callApiWithRetryGo_all_fail _ 3 hall 3 0
    simp only [analyzeDocumentStructure, callApiWithRetry]
    simp [hmsg]

/-- Witness for C6 at concrete inputs: a failed decode yields the synthetic
chapter, and a run whose every remote attempt throws yields the synthetic
chapter. -/
theorem C6_analyze_fallback_witness :
    structureFromRaw none 7 = [fallbackChapter 7]
    ∧ analyzeDocumentStructure (fun _ => Outcome.failure (("boom").data)) [⟨1, ("a").data⟩]
      = some [fallbackChapter 1] :=
  ⟨(C6_analyze_fallback (fun _ => Outcome.failure (("boom").data)) [⟨1, ("a").data⟩] none 7).1
      (Or.inl rfl),
   (C6_analyze_fallback (fun _ => Outcome.failure (("boom").data)) [⟨1, ("a").data⟩] none 7).2
      (fun _ => ⟨_, rfl⟩)⟩

/-! ## Lemmas about chapter range reconciliation (for C1) -/

theorem setLastEnd_clampPass_cons (c d : RawChapter) (rest : List RawChapter) (total : Int) :
    setLastEnd total (clampPass (c :: d :: rest))
      = (if d.startPage ≤ c.endPage then { c with endPage := d.startPage - 1 } else c)
        :: setLastEnd total (clampPass (d :: rest)) := by
  cases rest <;> simp [clampPass, setLastEnd]

theorem setLastEnd_clampPass_map_start (total : Int) :
    ∀ cs : List RawChapter,
      (setLastEnd total (clampPass cs)).map (fun c => c.startPage)
        = cs.map (fun c => c.startPage) := by
  intro cs
  induction cs with
  | nil => simp [clampPass, setLastEnd]
  | cons c tail ih =>
    cases tail with
    | nil => simp [clampPass, setLastEnd]
    | cons d rest =>
      rw [setLastEnd_clampPass_cons]
      simp only [List.map_cons] at ih ⊢
      rw [ih]
      by_cases h : d.startPage ≤ c.endPage <;> simp [h]

theorem getLast?_cons_of_ne_nil {α : Type} (a : α) {l : List α} (h : l ≠ []) :
    (a :: l).getLast? = l.getLast? := by
  cases l with
  | nil => exact absurd rfl h
  | cons b t => exact List.getLast?_cons_cons

theorem setLastEnd_clampPass_getLast (total : Int) :
    ∀ cs : List RawChapter,
      (setLastEnd total (clampPass cs)).getLast?
        = cs.getLast?.map (fun c => { c with endPage := total }) := by
  intro cs
  induction cs with
  | nil => simp [clampPass, setLastEnd]
  | cons c tail ih =>
    cases tail with
    | nil => simp [clampPass, setLastEnd]
    | cons d rest =>
      rw [setLastEnd_clampPass_cons]
      have hne : setLastEnd total (clampPass (d :: rest)) ≠ [] := by
        intro hnil
        have hms := setLastEnd_clampPass_map_start total (d :: rest)
        rw [hnil] at hms
        simp at hms
      rw [getLast?_cons_of_ne_nil _ hne, ih, List.getLast?_cons_cons]

theorem mem_setLastEnd_clampPass_start (total : Int) (cs : List RawChapter)
    (b : RawChapter) (hb : b ∈ setLastEnd total (clampPass cs)) :
    ∃ x ∈ cs, b.startPage = x.startPage := by
  have hmem : b.startPage ∈ (setLastEnd total (clampPass cs)).map (fun c => c.startPage) :=
    List.mem_map.2 ⟨b, hb, rfl⟩
  rw [setLastEnd_clampPass_map_start] at hmem
  obtain ⟨x, hx, hxe⟩ := List.mem_map.1 hmem
  exact ⟨x, hx, hxe.symm⟩

theorem setLastEnd_clampPass_pairwise (total : Int) :
    ∀ cs : List RawChapter, cs.Pairwise (fun a b => a.startPage < b.startPage) →
      (setLastEnd total (clampPass cs)).Pairwise
        (fun a b => a.startPage < b.startPage ∧ a.endPage < b.startPage) := by
  intro cs
  induction cs with
  | nil => intro _; simp [clampPass, setLastEnd]
  | cons c tail ih =>
    cases tail with
    | nil => intro _; simp [clampPass, setLastEnd]
    | cons d rest =>
      intro hp
      rw [List.pairwise_cons] at hp
      obtain ⟨hhead, htail⟩ := hp
      have hcd : c.startPage < d.startPage := hhead d (by simp)
      rw [setLastEnd_clampPass_cons, List.pairwise_cons]
      refine ⟨?_, ih htail⟩
      intro b hb
      obtain ⟨x, hx, hbx⟩ := mem_setLastEnd_clampPass_start total (d :: rest) b hb
      have hdx : d.startPage ≤ x.startPage := by
        rcases List.mem_cons.1 hx with rfl | hx'
        · omega
        · have := (List.pairwise_cons.1 htail).1 x hx'
          omega
      by_cases hcl : d.startPage ≤ c.endPage
      · simp only [if_pos hcl]
        exact ⟨show c.startPage < b.startPage by omega,
          show d.startPage - 1 < b.startPage by omega⟩
      · simp only [if_neg hcl]
        exact ⟨by omega, by omega⟩

theorem mem_assignChapterIds :
    ∀ (i : Nat) (cs : List RawChapter) (b : Chapter), b ∈ assignChapterIds i cs →
      ∃ x ∈ cs, b.startPage = x.startPage ∧ b.endPage = x.endPage := by
  intro i cs
  induction cs generalizing i with
  | nil => intro b hb; simp [assignChapterIds] at hb
  | cons c rest ih =>
    intro b hb
    rcases List.mem_cons.1 hb with rfl | hb'
    · exact ⟨c, by simp, rfl, rfl⟩
    · obtain ⟨x, hx, he⟩ := ih (i + 1) b hb'
      exact ⟨x, by simp [hx], he⟩

theorem assignChapterIds_pairwise :
    ∀ (i : Nat) (cs : List RawChapter),
      cs.Pairwise (fun a b => a.startPage < b.startPage ∧ a.endPage < b.startPage) →
      (assignChapterIds i cs).Pairwise
        (fun a b : Chapter => a.startPage < b.startPage ∧ a.endPage < b.startPage) := by
  intro i cs
  induction cs generalizing i with
  | nil => intro _; simp [assignChapterIds]
  | cons c rest ih =>
    intro hp
    rw [List.pairwise_cons] at hp
    obtain ⟨hhead, htail⟩ := hp
    rw [assignChapterIds, List.pairwise_cons]
    refine ⟨?_, ih (i + 1) htail⟩
    intro b hb
    obtain ⟨x, hx, hbs, hbe⟩ := mem_assignChapterIds (i + 1) rest b hb
    have := hhead x hx
    constructor <;> simp <;> omega

theorem assignChapterIds_getLast? :
    ∀ (i : Nat) (cs : List RawChapter) (b : RawChapter), cs.getLast? = some b →
      ∃ k, (assignChapterIds i cs).getLast?
        = some (Chapter.mk k b.title b.startPage b.endPage) := by
  intro i cs
  induction cs generalizing i with
  | nil => intro b hb; simp at hb
  | cons c rest ih =>
    intro b hb
    cases rest with
    | nil =>
      simp at hb
      subst hb
      exact ⟨i, rfl⟩
    | cons d t =>
      rw [List.getLast?_cons_cons] at hb
      obtain ⟨k, hk⟩ := ih (i + 1) b hb
      refine ⟨k, ?_⟩
      rw [assignChapterIds, getLast?_cons_of_ne_nil _ (by simp [assignChapterIds]), hk]

theorem filter_getLast?_of_getLast? {α : Type} (p : α → Bool) :
    ∀ (l : List α) (a : α), l.getLast? = some a → p a = true →
      (l.filter p).getLast? = some a := by
  intro l
  induction l with
  | nil => intro a h _; simp at h
  | cons c rest ih =>
    intro a h hp
    cases rest with
    | nil =>
      simp at h
      subst h
      simp [List.filter, hp]
    | cons d t =>
      rw [List.getLast?_cons_cons] at h
      have h3 := ih a h hp
      have hne : (d :: t).filter p ≠ [] := by
        intro hnil
        rw [hnil] at h3
        simp at h3
      rw [List.filter_cons]
      by_cases hc : p c = true
      · simp only [if_pos hc]
        rw [getLast?_cons_of_ne_nil _ hne, h3]
      · simp only [if_neg hc]
        exact h3

/-- C1 counterexample: the analyzer never sorts, and the validity filter
can drop a middle chapter whose range was clamped to emptiness, leaving a
result that is neither sorted by `startPage` nor free of overlap. With ten
pages and decoded chapters `(5,6), (7,8), (2,3)`, the returned array is
`(5,6)` followed by `(2,10)`: its `startPage`s decrease and the first
chapter's `endPage` (6) is not below the second's `startPage` (2), so the
claimed invariant fails on this accepted non-empty decoded output. -/
theorem C1_counterexample :
    analyzeDocumentStructure
        (fun _ => Outcome.success
          (some [⟨("A").data, 5, 6⟩, ⟨("B").data, 7, 8⟩, ⟨("C").data, 2, 3⟩]))
        ((List.range 10).map (fun i => PageText.mk ((i : Int) + 1) []))
      = some [⟨0, ("A").data, 5, 6⟩, ⟨2, ("C").data, 2, 10⟩]
    ∧ ¬ ((5 : Int) < 2 ∨ (5 : Int) = 2)
    ∧ ¬ ((6 : Int) < 2) := by
  refine ⟨by decide, by omega, by omega⟩

/-- C1 amended: for every page list and every decoded model output
accepted as non-empty whose chapters' `startPage`s are strictly increasing
and whose last chapter's `startPage` lies between 1 and the total page
count, the chapter array produced by the analyzer's reconciliation is
non-empty, sorted strictly by `startPage`, has no overlap between any
adjacent pair, and its last chapter's `endPage` equals the supplied total
page count (`pages.length`) exactly, regardless of the end pages in the
raw model output. -/
theorem C1_normalize_invariants (pages : List PageText) (cs : List RawChapter)
    (hne : cs ≠ [])
    (hsorted : cs.Pairwise (fun a b => a.startPage < b.startPage))
    (hlast : ∀ c, cs.getLast? = some c →
      1 ≤ c.startPage ∧ c.startPage ≤ (pages.length : Int)) :
    normalizeChapters cs (pages.length : Int) ≠ []
    ∧ List.Chain' (fun a b : Chapter => a.startPage < b.startPage)
        (normalizeChapters cs (pages.length : Int))
    ∧ List.Chain' (fun a b : Chapter => a.endPage < b.startPage)
        (normalizeChapters cs (pages.length : Int))
    ∧ (normalizeChapters cs (pages.length : Int)).getLast?.map (fun c => c.endPage)
        = some (pages.length : Int) := by
  set total := (pages.length : Int) with htotal
  obtain ⟨c0, hc0⟩ : ∃ c0, cs.getLast? = some c0 := by
    cases h : cs.getLast? with
    | none => exact absurd (List.getLast?_eq_none_iff.1 h) hne
    | some c0 => exact ⟨c0, rfl⟩
  have hrecl : (setLastEnd total (clampPass cs)).getLast?
      = some { c0 with endPage := total } := by
    rw [setLastEnd_clampPass_getLast, hc0]
    rfl
  obtain ⟨k, hassign⟩ := assignChapterIds_getLast? 0 _ _ hrecl
  have hvalid : validChapter total (Chapter.mk k c0.title c0.startPage total) = true := by
    obtain ⟨h1, h2⟩ := hlast c0 hc0
    simp [validChapter]
    omega
  have hfl := filter_getLast?_of_getLast? (validChapter total) _ _ hassign hvalid
  have hpair := assignChapterIds_pairwise 0 _ (setLastEnd_clampPass_pairwise total cs hsorted)
  have hpairf : (normalizeChapters cs total).Pairwise
      (fun a b : Chapter => a.startPage < b.startPage ∧ a.endPage < b.startPage) :=
    hpair.sublist (List.filter_sublist _)
  refine ⟨?_, ?_, ?_, ?_⟩
  · intro hnil
    have : (normalizeChapters cs total).getLast? = some (Chapter.mk k c0.title c0.startPage total) := hfl
    rw [hnil] at this
    simp at this
  · exact (hpairf.imp (fun h => h.1)).chain'
  · exact (hpairf.imp (fun h => h.2)).chain'
  · have : (normalizeChapters cs total).getLast? = some (Chapter.mk k c0.title c0.startPage total) := hfl
    rw [this]
    rfl

/-- Witness for C1 at concrete inputs: three pages and decoded chapters
`(1,2), (3,9)` give the non-empty sorted result `(1,2), (3,3)`. -/
theorem C1_normalize_invariants_witness :
    normalizeChapters [⟨("A").data, 1, 2⟩, ⟨("B").data, 3, 9⟩] ((3 : Nat) : Int) ≠ []
    ∧ List.Chain' (fun a b : Chapter => a.startPage < b.startPage)
        (normalizeChapters [⟨("A").data, 1, 2⟩, ⟨("B").data, 3, 9⟩] ((3 : Nat) : Int))
    ∧ List.Chain' (fun a b : Chapter => a.endPage < b.startPage)
        (normalizeChapters [⟨("A").data, 1, 2⟩, ⟨("B").data, 3, 9⟩] ((3 : Nat) : Int))
    ∧ (normalizeChapters [⟨("A").data, 1, 2⟩, ⟨("B").data, 3, 9⟩] ((3 : Nat) : Int)).getLast?.map
        (fun c => c.endPage) = some ((3 : Nat) : Int) := by
  have h := C1_normalize_invariants
    [⟨1, ("x").data⟩, ⟨2, ("y").data⟩, ⟨3, ("z").data⟩]
    [⟨("A").data, 1, 2⟩, ⟨("B").data, 3, 9⟩]
    (by decide)
    (by decide)
    (by intro c hc; simp at hc; subst hc; constructor <;> decide)
  simpa using h

/-! ## C5: the sanitizer on bracket-free input -/

theorem mem_dropTrailWhile {p : Char → Bool} {l : List Char} {x : Char}
    (h : x ∈ dropTrailWhile p l) : x ∈ l := by
  unfold dropTrailWhile at h
  rw [List.mem_reverse] at h
  exact List.mem_reverse.1 ((List.dropWhile_sublist _).mem h)

theorem mem_trimChars {l : List Char} {x : Char} (h : x ∈ trimChars l) : x ∈ l :=
  (List.dropWhile_sublist _).mem (mem_dropTrailWhile h)

theorem mem_fenceInner {l g2 : List Char} (hf : fenceInner l = some g2) {x : Char}
    (h : x ∈ g2) : x ∈ l := by
  unfold fenceInner at hf
  by_cases hc : 6 ≤ l.length ∧ l.take 3 = fenceTicks ∧ l.drop (l.length - 3) = fenceTicks
  · rw [if_pos hc] at hf
    cases hf
    have h1 := mem_dropTrailWhile h
    have h2 := (List.dropWhile_sublist _).mem h1
    have h3 := (List.dropWhile_sublist _).mem h2
    have h4 := (List.take_sublist _ _).mem h3
    exact (List.drop_sublist _ _).mem h4
  · rw [if_neg hc] at hf
    cases hf

theorem mem_unfence {l : List Char} {x : Char} (h : x ∈ unfence l) : x ∈ l := by
  unfold unfence at h
  cases hf : fenceInner l with
  | none => rwa [hf] at h
  | some g2 =>
    rw [hf] at h
    dsimp only at h
    by_cases hg : g2 = []
    · rwa [if_pos hg] at h
    · rw [if_neg hg] at h
      exact mem_fenceInner hf (mem_trimChars h)

theorem extractSlice_eq_none {l : List Char} (h : ∀ x ∈ l, isOpener x = false) :
    extractSlice l = none := by
  unfold extractSlice
  have : l.findIdx? isOpener = none := by
    rw [List.findIdx?_eq_none_iff]
    intro x hx
    exact (h x hx)
  rw [this]

/-- C5: `parseJsonResponse` never throws, returning a decoded value or
null for every input string (in the model it is the total function above
into `Option`); in particular any string containing neither an opening
brace nor `[` is answered with null. -/
theorem C5_parseJsonResponse_no_json (s : List Char)
    (h1 : obrace ∉ s) (h2 : '[' ∉ s) :
    parseJsonResponse s = none := by
  by_cases hs : s = []
  · rw [hs]
    rfl
  · unfold parseJsonResponse
    rw [if_neg hs]
    have hno : ∀ x ∈ unfence (trimChars s), isOpener x = false := by
      intro x hx
      have hxs : x ∈ s := mem_trimChars (mem_unfence hx)
      unfold isOpener
      have hx1 : x ≠ '[' := fun hxe => h2 (hxe ▸ hxs)
      have hx2 : x ≠ obrace := fun hxe => h1 (hxe ▸ hxs)
      simp [hx1, hx2]
    rw [extractSlice_eq_none hno]

/-- Witness for C5 at a concrete input: a plain prose string decodes to
null. -/
theorem C5_parseJsonResponse_no_json_witness :
    parseJsonResponse (("sorry, no structured data today").data) = none :=
  C5_parseJsonResponse_no_json _ (by decide) (by decide)

/-! ## C8: answer resolution and failure policy of `getFeedbackOnAnswers` -/

theorem getFeedback_calls_all_fail (userAnswers : List UserAnswer)
    (allQuestions : List QBlock) (calls : Nat → Outcome (Option (List FeedbackRaw)))
    (hf : ∀ i, ∃ e, calls i = Outcome.failure e)
    (hne : qaPairsForAI userAnswers allQuestions ≠ []) :
    (getFeedbackOnAnswers userAnswers allQuestions calls).1 = none := by
  unfold getFeedbackOnAnswers
  rw [if_neg hne]
  have hall : ∀ i, ∃ e, (fun i =>
      match calls i with
      | .failure e => Outcome.failure e
      | .success none => Outcome.success none
      | .success (some fbs) => Outcome.success (some (fbs.map (fun fb =>
          let orig := (qaPairsForAI userAnswers allQuestions).find?
            (fun p => p.questionId == fb.questionId)
          FeedbackItem.mk fb.questionId fb.isCorrect fb.explanation
            (orig.map (fun p => p.question)) (orig.map (fun p => p.userAnswer)))))) i
      = Outcome.failure (T := Option (List FeedbackItem)) e := by
    intro i
    obtain ⟨e, he⟩ := hf i
    exact ⟨e, by simp [he]⟩
  obtain ⟨msg, hmsg⟩ := callApiWithRetryGo_all_fail _ 3 hall 3 0
  simp only [callApiWithRetry]
  rw [hmsg]

/-- C8: in `getFeedbackOnAnswers`, every submitted answer whose
`questionId` matches no supplied question block, or matches a block whose
type does not end in `_question`, is dropped before grading; if no
submitted answer is gradable the function returns an empty list without
contacting the remote service; and on hard failure after retries it
returns null. -/
theorem C8_getFeedbackOnAnswers_policy (userAnswers : List UserAnswer)
    (allQuestions : List QBlock) (calls : Nat → Outcome (Option (List FeedbackRaw))) :
    (∀ ua : UserAnswer,
      (allQuestions.find? (fun q => q.qid == ua.questionId) = none
        ∨ ∃ qb, allQuestions.find? (fun q => q.qid == ua.questionId) = some qb
            ∧ questionSuffix.isSuffixOf qb.typeTag = false) →
      mkQaPair allQuestions ua = none)
    ∧ (qaPairsForAI userAnswers allQuestions = [] →
        getFeedbackOnAnswers userAnswers allQuestions calls = (some [], false))
    ∧ ((∀ i, ∃ e, calls i = Outcome.failure e) →
        qaPairsForAI userAnswers allQuestions ≠ [] →
        (getFeedbackOnAnswers userAnswers allQuestions calls).1 = none) := by
  refine ⟨?_, ?_, ?_⟩
  · intro ua hdrop
    unfold mkQaPair
    rcases hdrop with hnone | ⟨qb, hqb, hsuf⟩
    · rw [hnone]
    · rw [hqb]
      dsimp only
      rw [if_neg (by simp [hsuf])]
  · intro hempty
    unfold getFeedbackOnAnswers
    rw [if_pos hempty]
  · exact getFeedback_calls_all_fail userAnswers allQuestions calls

/-- Witness for C8 at concrete inputs: an answer citing an unknown id is
dropped; with nothing gradable the result is an empty list computed
without contacting the service; with one gradable answer and every remote
attempt throwing, the result is null. -/
theorem C8_getFeedbackOnAnswers_policy_witness :
    mkQaPair [] ⟨("q1").data, AnswerVal.astr (("hi").data)⟩ = none
    ∧ getFeedbackOnAnswers [⟨("q1").data, AnswerVal.astr (("hi").data)⟩] []
        (fun _ => Outcome.failure (("x").data)) = (some [], false)
    ∧ (getFeedbackOnAnswers
        [⟨("q1").data, AnswerVal.anum 0⟩]
        [QBlock.multipleChoice (("q1").data) (("Pick one").data)
          [("a").data, ("b").data] 1]
        (fun _ => Outcome.failure (("x").data))).1 = none := by
  refine ⟨?_, ?_, ?_⟩
  · exact (C8_getFeedbackOnAnswers_policy [] [] (fun _ => Outcome.failure (("x").data))).1
      _ (Or.inl rfl)
  · exact (C8_getFeedbackOnAnswers_policy [⟨("q1").data, AnswerVal.astr (("hi").data)⟩] []
      (fun _ => Outcome.failure (("x").data))).2.1 (by decide)
  · exact (C8_getFeedbackOnAnswers_policy
      [⟨("q1").data, AnswerVal.anum 0⟩]
      [QBlock.multipleChoice (("q1").data) (("Pick one").data)
        [("a").data, ("b").data] 1]
      (fun _ => Outcome.failure (("x").data))).2.2
      (fun _ => ⟨_, rfl⟩) (by decide)

/-! ## Character facts for the round-trip proof -/

theorem char_ne_of_isDigitChar {c : Char} (h : isDigitChar c = true) :
    c ≠ 'n' ∧ c ≠ 't' ∧ c ≠ 'f' ∧ c ≠ '"' ∧ c ≠ '[' ∧ c ≠ obrace ∧ c ≠ '-'
    ∧ c ≠ ']' ∧ c ≠ cbrace ∧ c ≠ ',' ∧ c ≠ ':' := by
  refine ⟨?_, ?_, ?_, ?_, ?_, ?_, ?_, ?_, ?_, ?_, ?_⟩ <;>
    (rintro rfl; exact absurd h (by decide))

theorem ws_false_of_isDigitChar {c : Char} (h : isDigitChar c = true) :
    isJsonWsChar c = false := by
  have h1 : c ≠ ' ' := by rintro rfl; exact absurd h (by decide)
  have h2 : c ≠ '\t' := by rintro rfl; exact absurd h (by decide)
  have h3 : c ≠ '\n' := by rintro rfl; exact absurd h (by decide)
  have h4 : c ≠ '\x0d' := by rintro rfl; exact absurd h (by decide)
  simp [isJsonWsChar, h1, h2, h3, h4]

theorem toNat_ofNat_digit (d : Nat) (hd : d < 10) :
    (Char.ofNat (48 + d)).toNat = 48 + d := by
  interval_cases d <;> decide

theorem isDigitChar_ofNat_digit (d : Nat) (hd : d < 10) :
    isDigitChar (Char.ofNat (48 + d)) = true := by
  interval_cases d <;> decide

theorem ofNat_digit_ne_zero (d : Nat) (hd : d < 10) (hnz : d ≠ 0) :
    Char.ofNat (48 + d) ≠ '0' := by
  interval_cases d <;> first | omega | decide

/-! ## Decimal rendering round-trip -/

theorem natDigitsAux_all_digits :
    ∀ (fuel n : Nat), ∀ c ∈ natDigitsAux fuel n, isDigitChar c = true := by
  intro fuel
  induction fuel with
  | zero => intro n c hc; simp [natDigitsAux] at hc
  | succ f ih =>
    intro n c hc
    by_cases hn : n = 0
    · simp [natDigitsAux, hn] at hc
    · rw [natDigitsAux, if_neg hn] at hc
      rcases List.mem_append.1 hc with hc' | hc'
      · exact ih _ c hc'
      · rw [List.mem_singleton.1 hc']
        exact isDigitChar_ofNat_digit _ (Nat.mod_lt _ (by omega))

theorem natDigitsAux_head :
    ∀ (fuel n : Nat), n ≠ 0 → n ≤ fuel →
      ∃ d t, natDigitsAux fuel n = d :: t ∧ isDigitChar d = true ∧ d ≠ '0' := by
  intro fuel
  induction fuel with
  | zero => intro n h0 hle; omega
  | succ f ih =>
    intro n h0 hle
    rw [natDigitsAux, if_neg h0]
    by_cases hq : n / 10 = 0
    · have haux : natDigitsAux f (n / 10) = [] := by
        cases f with
        | zero => rfl
        | succ f' => rw [natDigitsAux, if_pos hq]
      have hmod : n % 10 = n := Nat.mod_eq_of_lt (by omega)
      rw [haux]
      refine ⟨Char.ofNat (48 + n % 10), [], by simp, ?_, ?_⟩
      · exact isDigitChar_ofNat_digit _ (Nat.mod_lt _ (by omega))
      · exact ofNat_digit_ne_zero _ (Nat.mod_lt _ (by omega)) (by omega)
    · obtain ⟨d, t, heq, hd, hd0⟩ := ih (n / 10) hq (by omega)
      exact ⟨d, t ++ [Char.ofNat (48 + n % 10)], by rw [heq]; rfl, hd, hd0⟩

theorem natDigitsAux_foldl :
    ∀ (fuel n : Nat), n ≤ fuel → ∀ acc : Nat,
      (natDigitsAux fuel n).foldl (fun a c => a * 10 + (c.toNat - 48)) acc
        = acc * 10 ^ (natDigitsAux fuel n).length + n := by
  intro fuel
  induction fuel with
  | zero =>
    intro n hle acc
    have : n = 0 := by omega
    simp [natDigitsAux, this]
  | succ f ih =>
    intro n hle acc
    by_cases hn : n = 0
    · simp [natDigitsAux, hn]
    · rw [natDigitsAux, if_neg hn]
      rw [List.foldl_append, List.length_append]
      have hq : n / 10 ≤ f := by omega
      rw [ih (n / 10) hq acc]
      simp only [List.foldl_cons, List.foldl_nil, List.length_cons, List.length_nil]
      rw [toNat_ofNat_digit (n % 10) (Nat.mod_lt _ (by omega))]
      have hdm : n / 10 * 10 + n % 10 = n := by omega
      rw [pow_succ]
      ring_nf
      omega

theorem parseNatVal_renderNat (n : Nat) : parseNatVal (renderNat n) = n := by
  unfold parseNatVal renderNat
  by_cases hn : n = 0
  · simp [hn]
  · rw [if_neg hn, natDigitsAux_foldl n n (le_refl n) 0]
    simp

theorem renderNat_ne_nil (n : Nat) : renderNat n ≠ [] := by
  unfold renderNat
  by_cases hn : n = 0
  · simp [hn]
  · rw [if_neg hn]
    obtain ⟨d, t, heq, _, _⟩ := natDigitsAux_head n n hn (le_refl n)
    rw [heq]
    simp

theorem renderNat_all_digits (n : Nat) : ∀ c ∈ renderNat n, isDigitChar c = true := by
  unfold renderNat
  by_cases hn : n = 0
  · intro c hc
    rw [if_pos hn] at hc
    rw [List.mem_singleton.1 hc]
    decide
  · rw [if_neg hn]
    exact natDigitsAux_all_digits n n

theorem takeWhile_append_all {p : Char → Bool} :
    ∀ (A B : List Char), (∀ a ∈ A, p a = true) → (numBoundary B = true → True) →
      (∀ b, B.head? = some b → p b = false) →
      (A ++ B).takeWhile p = A ∧ (A ++ B).drop A.length = B := by
  intro A B hA _ hB
  constructor
  · induction A with
    | nil =>
      cases B with
      | nil => rfl
      | cons b t =>
        simp only [List.nil_append, List.takeWhile_cons]
        rw [hB b rfl]
        simp
    | cons a t ih =>
      simp only [List.cons_append, List.takeWhile_cons]
      rw [hA a (by simp)]
      simp [ih (fun x hx => hA x (by simp [hx]))]
  · simp

theorem parseNumRest_renderNat (n : Nat) (rest : List Char)
    (hb : numBoundary rest = true) :
    parseNumRest (renderNat n ++ rest) = some (n, rest) := by
  have hB : ∀ b, rest.head? = some b → isDigitChar b = false := by
    intro b hbb
    cases rest with
    | nil => simp at hbb
    | cons c t =>
      simp at hbb
      subst hbb
      simp [numBoundary] at hb
      exact hb.1.1.1
  obtain ⟨htake, hdrop⟩ :=
    takeWhile_append_all (renderNat n) rest (renderNat_all_digits n) (fun _ => trivial) hB
  unfold parseNumRest
  simp only [htake]
  rw [if_neg (by simp [renderNat_ne_nil n])]
  have hlen : (renderNat n ++ rest).drop (renderNat n).length = rest := by
    simp
  rw [hlen]
  have hnolead : ¬(2 ≤ (renderNat n).length ∧ (renderNat n).head? = some '0') := by
    rintro ⟨hlen2, hhead⟩
    unfold renderNat at hlen2 hhead
    by_cases hn : n = 0
    · rw [if_pos hn] at hlen2
      simp at hlen2
    · rw [if_neg hn] at hhead
      obtain ⟨d, t, heq, _, hd0⟩ := natDigitsAux_head n n hn (le_refl n)
      rw [heq] at hhead
      simp at hhead
      exact hd0 hhead
  rw [if_neg hnolead]
  have hstop : numStop rest = false := by
    cases rest with
    | nil => rfl
    | cons c t =>
      simp [numBoundary] at hb
      obtain ⟨⟨⟨hd, hdot⟩, he⟩, hE⟩ := hb
      simp [numStop, hdot, he, hE]
  rw [hstop]
  simp [parseNatVal_renderNat]

/-! ## String escaping round-trip -/

theorem hexVal_hexDigitChar (m : Nat) (hm : m < 16) : hexVal (hexDigitChar m) = some m := by
  interval_cases m <;> decide

theorem parseStrRest_escStr : ∀ (s rest : List Char),
    parseStrRest (escStr s ++ '"' :: rest) = some (s, rest) := by
  intro s
  induction s with
  | nil =>
    intro rest
    rw [escStr, List.nil_append, parseStrRest.eq_def]
    simp
  | cons c s' ih =>
    intro rest
    rw [escStr, List.append_assoc]
    by_cases h1 : c = '"'
    · subst h1
      show parseStrRest ('\\' :: '"' :: (escStr s' ++ '"' :: rest)) = some ('"' :: s', rest)
      rw [parseStrRest.eq_def]
      dsimp only
      simp [ih]
    by_cases h2 : c = '\\'
    · subst h2
      show parseStrRest ('\\' :: '\\' :: (escStr s' ++ '"' :: rest)) = some ('\\' :: s', rest)
      rw [parseStrRest.eq_def]
      dsimp only
      simp [ih]
    by_cases h3 : c = '\x08'
    · subst h3
      show parseStrRest ('\\' :: 'b' :: (escStr s' ++ '"' :: rest)) = some ('\x08' :: s', rest)
      rw [parseStrRest.eq_def]
      dsimp only
      simp [ih]
    by_cases h4 : c = '\t'
    · subst h4
      show parseStrRest ('\\' :: 't' :: (escStr s' ++ '"' :: rest)) = some ('\t' :: s', rest)
      rw [parseStrRest.eq_def]
      dsimp only
      simp [ih]
    by_cases h5 : c = '\n'
    · subst h5
      show parseStrRest ('\\' :: 'n' :: (escStr s' ++ '"' :: rest)) = some ('\n' :: s', rest)
      rw [parseStrRest.eq_def]
      dsimp only
      simp [ih]
    by_cases h6 : c = '\x0c'
    · subst h6
      show parseStrRest ('\\' :: 'f' :: (escStr s' ++ '"' :: rest)) = some ('\x0c' :: s', rest)
      rw [parseStrRest.eq_def]
      dsimp only
      simp [ih]
    by_cases h7 : c = '\x0d'
    · subst h7
      show parseStrRest ('\\' :: 'r' :: (escStr s' ++ '"' :: rest)) = some ('\x0d' :: s', rest)
      rw [parseStrRest.eq_def]
      dsimp only
      simp [ih]
    by_cases h8 : c.toNat < 32
    · have hesc : escChar c
          = ['\\', 'u', '0', '0', hexDigitChar (c.toNat / 16), hexDigitChar (c.toNat % 16)] := by
        simp [escChar, h1, h2, h3, h4, h5, h6, h7, h8]
      rw [hesc]
      show parseStrRest
          ('\\' :: 'u' :: '0' :: '0' :: hexDigitChar (c.toNat / 16)
            :: hexDigitChar (c.toNat % 16) :: (escStr s' ++ '"' :: rest))
        = some (c :: s', rest)
      rw [parseStrRest.eq_def]
      dsimp only
      have hq : c.toNat / 16 < 16 := by omega
      have hr : c.toNat % 16 < 16 := by omega
      simp only [hexVal_hexDigitChar _ hq, hexVal_hexDigitChar _ hr,
        show hexVal '0' = some 0 from rfl]
      simp [hexVal_hexDigitChar _ hq, hexVal_hexDigitChar _ hr, ih]
      have hcode : c.toNat / 16 * 16 + c.toNat % 16 = c.toNat := by omega
      constructor
      · rw [hcode]
        exact Or.inl (by omega)
      · rw [hcode, Char.ofNat_toNat]
    · have hesc : escChar c = [c] := by
        simp [escChar, h1, h2, h3, h4, h5, h6, h7, h8]
      rw [hesc]
      show parseStrRest (c :: (escStr s' ++ '"' :: rest)) = some (c :: s', rest)
      rw [parseStrRest.eq_def]
      dsimp only
      rw [if_neg h1, if_neg h2, if_pos (show 32 ≤ c.toNat by omega), ih]
      rfl

/-! ## Number rendering round-trip inside the parser -/

theorem renderNat_head (m : Nat) :
    ∃ d t, renderNat m = d :: t ∧ isDigitChar d = true := by
  by_cases hm : m = 0
  · exact ⟨'0', [], by simp [renderNat, hm], by decide⟩
  · obtain ⟨d, t, heq, hd, _⟩ := natDigitsAux_head m m hm (le_refl m)
    exact ⟨d, t, by rw [renderNat, if_neg hm, heq], hd⟩

theorem parseP_pv_num (n : Int) (rest : List Char) (fuel : Nat) (hfuel : 1 ≤ fuel)
    (hb : numBoundary rest = true) :
    parseP fuel PMode.pv (renderInt n ++ rest) = some (PRes.rv (Json.jnum n), rest) := by
  obtain ⟨f, rfl⟩ : ∃ f, fuel = f + 1 := ⟨fuel - 1, by omega⟩
  by_cases hn : n < 0
  · rw [renderInt, if_pos hn]
    simp only [parseP, List.cons_append]
    rw [List.dropWhile_cons]
    rw [if_neg (by decide : ¬ (isJsonWsChar '-' = true))]
    simp only [if_neg (by decide : ¬ ('-' : Char) = 'n'),
      if_neg (by decide : ¬ ('-' : Char) = 't'), if_neg (by decide : ¬ ('-' : Char) = 'f'),
      if_neg (by decide : ¬ ('-' : Char) = '"'), if_neg (by decide : ¬ ('-' : Char) = '['),
      if_neg (by decide : ¬ ('-' : Char) = obrace), if_pos (rfl : ('-' : Char) = '-')]
    rw [parseNumRest_renderNat n.natAbs rest hb]
    have : -(n.natAbs : Int) = n := by omega
    show some (PRes.rv (Json.jnum (-((n.natAbs : Nat) : Int))), rest)
      = some (PRes.rv (Json.jnum n), rest)
    rw [this]
  · rw [renderInt, if_neg hn]
    obtain ⟨d, t, heq, hdig⟩ := renderNat_head n.toNat
    obtain ⟨hne1, hne2, hne3, hne4, hne5, hne6, hne7, _, _, _, _⟩ := char_ne_of_isDigitChar hdig
    rw [heq]
    simp only [parseP, List.cons_append]
    rw [List.dropWhile_cons]
    rw [if_neg (by simp [ws_false_of_isDigitChar hdig])]
    simp only [if_neg hne1, if_neg hne2, if_neg hne3, if_neg hne4, if_neg hne5,
      if_neg hne6, if_neg hne7, hdig, if_pos rfl]
    rw [show d :: (t ++ rest) = (d :: t) ++ rest from rfl, ← heq]
    rw [parseNumRest_renderNat n.toNat rest hb]
    have : (n.toNat : Int) = n := by omega
    show some (PRes.rv (Json.jnum ((n.toNat : Nat) : Int)), rest)
      = some (PRes.rv (Json.jnum n), rest)
    rw [this]

/-! ## Head characters and length bounds of rendered values -/

theorem jrender_head_props (v : Json) :
    ∃ c t, jrender v = c :: t ∧ isJsonWsChar c = false ∧ c ≠ ']' := by
  cases v with
  | jnull => exact ⟨'n', _, rfl, by decide, by decide⟩
  | jbool b => cases b with
    | true => exact ⟨'t', _, rfl, by decide, by decide⟩
    | false => exact ⟨'f', _, rfl, by decide, by decide⟩
  | jnum n =>
    show ∃ c t, renderInt n = c :: t ∧ _
    by_cases hn : n < 0
    · exact ⟨'-', _, by rw [renderInt, if_pos hn], by decide, by decide⟩
    · obtain ⟨d, t, heq, hdig⟩ := renderNat_head n.toNat
      obtain ⟨_, _, _, _, _, _, _, hd1, _, _, _⟩ := char_ne_of_isDigitChar hdig
      exact ⟨d, t, by rw [renderInt, if_neg hn, heq],
        ws_false_of_isDigitChar hdig, hd1⟩
  | jstr s => exact ⟨'"', _, rfl, by decide, by decide⟩
  | jarr xs => exact ⟨'[', _, rfl, by decide, by decide⟩
  | jobj kvs => exact ⟨obrace, _, rfl, by decide, by decide⟩

theorem jrenderMems_head (k : List Char) (v : Json) (t : List (List Char × Json)) :
    ∃ t', jrenderMems ((k, v) :: t) = '"' :: t' := by
  cases t with
  | nil => exact ⟨escStr k ++ '"' :: ':' :: jrender v, rfl⟩
  | cons m t2 =>
    exact ⟨escStr k ++ '"' :: ':' :: jrender v ++ ',' :: jrenderMems (m :: t2), rfl⟩

mutual

theorem jsize_le_length : ∀ v : Json, jsize v ≤ (jrender v).length
  | .jnull => by simp [jsize, jrender]
  | .jbool b => by cases b <;> simp [jsize, jrender]
  | .jnum n => by
    have h := renderNat_head (if n < 0 then n.natAbs else n.toNat)
    simp only [jsize, jrender, renderInt]
    by_cases hn : n < 0
    · simp [hn]
    · rw [if_neg hn]
      obtain ⟨d, t, heq, _⟩ := renderNat_head n.toNat
      simp [heq]
  | .jstr s => by simp [jsize, jrender]
  | .jarr xs => by
    have h := jsizeL_le_length xs
    simp only [jsize, jrender, List.length_cons, List.length_append]
    omega
  | .jobj kvs => by
    have h := jsizeM_le_length kvs
    simp only [jsize, jrender, List.length_cons, List.length_append]
    omega

theorem jsizeL_le_length : ∀ xs : List Json, jsizeL xs ≤ (jrenderElems xs).length + 1
  | [] => by simp [jsizeL, jrenderElems]
  | [x] => by
    have h := jsize_le_length x
    simp only [jsizeL, jrenderElems]
    omega
  | x :: y :: t => by
    have h1 := jsize_le_length x
    have h2 := jsizeL_le_length (y :: t)
    rw [jsizeL, jrenderElems]
    simp only [List.length_append, List.length_cons]
    omega

theorem jsizeM_le_length :
    ∀ kvs : List (List Char × Json), jsizeM kvs ≤ (jrenderMems kvs).length + 1
  | [] => by simp [jsizeM, jrenderMems]
  | [(k, v)] => by
    have h := jsize_le_length v
    simp only [jsizeM, jrenderMems, List.length_append, List.length_cons]
    omega
  | (k, v) :: m :: t => by
    have h1 := jsize_le_length v
    have h2 := jsizeM_le_length (m :: t)
    rw [jsizeM, jrenderMems]
    simp only [List.length_append, List.length_cons]
    omega

end

theorem jsize_pos (v : Json) : 1 ≤ jsize v := by
  cases v <;> simp [jsize]

theorem jrenderElems_factor (x : Json) (xs' : List Json) :
    ∃ S, jrenderElems (x :: xs') = jrender x ++ S := by
  cases xs' with
  | nil => exact ⟨[], (List.append_nil _).symm⟩
  | cons y t => exact ⟨',' :: jrenderElems (y :: t), rfl⟩

/-! ## One-step unfolding lemmas for the fuelled parser

Each is definitional: the fuel argument is in successor form and the head
characters are concrete, so the equation reduces. -/

theorem parseP_step_null (f : Nat) (rest : List Char) :
    parseP (f + 1) PMode.pv ( 'n' :: 'u' :: 'l' :: 'l' :: rest)
      = some (PRes.rv Json.jnull, rest) := rfl

theorem parseP_step_true (f : Nat) (rest : List Char) :
    parseP (f + 1) PMode.pv ( 't' :: 'r' :: 'u' :: 'e' :: rest)
      = some (PRes.rv (Json.jbool true), rest) := rfl

theorem parseP_step_false (f : Nat) (rest : List Char) :
    parseP (f + 1) PMode.pv ( 'f' :: 'a' :: 'l' :: 's' :: 'e' :: rest)
      = some (PRes.rv (Json.jbool false), rest) := rfl

theorem parseP_step_str (f : Nat) (r : List Char) :
    parseP (f + 1) PMode.pv ( '"' :: r)
      = (parseStrRest r).map (fun p => (PRes.rv (Json.jstr p.1), p.2)) := rfl

theorem parseP_step_arr_nil (f : Nat) (rest : List Char) :
    parseP (f + 1) PMode.pv ( '[' :: ']' :: rest)
      = some (PRes.rv (Json.jarr []), rest) := rfl

theorem parseP_step_obj_nil (f : Nat) (rest : List Char) :
    parseP (f + 1) PMode.pv (obrace :: cbrace :: rest)
      = some (PRes.rv (Json.jobj []), rest) := rfl

theorem parseP_step_arr (f : Nat) (r : List Char) :
    parseP (f + 1) PMode.pv ( '[' :: r)
      = (match r.dropWhile isJsonWsChar with
        | [] => none
        | d :: r2 =>
          if d = ']' then some (PRes.rv (Json.jarr []), r2)
          else
            match parseP f PMode.pe (d :: r2) with
            | some (PRes.re xs, r3) => some (PRes.rv (Json.jarr xs), r3)
            | _ => none) := rfl

theorem parseP_step_obj (f : Nat) (r : List Char) :
    parseP (f + 1) PMode.pv (obrace :: r)
      = (match r.dropWhile isJsonWsChar with
        | [] => none
        | d :: r2 =>
          if d = cbrace then some (PRes.rv (Json.jobj []), r2)
          else
            match parseP f PMode.pm (d :: r2) with
            | some (PRes.rm kvs, r3) => some (PRes.rv (Json.jobj kvs), r3)
            | _ => none) := rfl

theorem parseP_step_pe (f : Nat) (s : List Char) :
    parseP (f + 1) PMode.pe s
      = (match parseP f PMode.pv s with
        | some (PRes.rv v, r) =>
          match r.dropWhile isJsonWsChar with
          | [] => none
          | d :: r2 =>
            if d = ',' then
              match parseP f PMode.pe r2 with
              | some (PRes.re xs, r3) => some (PRes.re (v :: xs), r3)
              | _ => none
            else if d = ']' then some (PRes.re [v], r2)
            else none
        | _ => none) := rfl

theorem parseP_step_pm (f : Nat) (r : List Char) :
    parseP (f + 1) PMode.pm ( '"' :: r)
      = (match parseStrRest r with
        | some (k, r1) =>
          match r1.dropWhile isJsonWsChar with
          | [] => none
          | d :: r3 =>
            if d = ':' then
              match parseP f PMode.pv r3 with
              | some (PRes.rv v, r4) =>
                match r4.dropWhile isJsonWsChar with
                | [] => none
                | e :: r6 =>
                  if e = ',' then
                    match parseP f PMode.pm r6 with
                    | some (PRes.rm kvs, r7) => some (PRes.rm ((k, v) :: kvs), r7)
                    | _ => none
                  else if e = cbrace then some (PRes.rm [(k, v)], r6)
                  else none
              | _ => none
            else none
        | none => none) := rfl

theorem parseP_jrender : ∀ N : Nat,
    (∀ v : Json, jsize v ≤ N → ∀ (rest : List Char) (fuel : Nat),
      2 * jsize v + 1 ≤ fuel → numBoundary rest = true →
      parseP fuel PMode.pv (jrender v ++ rest) = some (PRes.rv v, rest))
    ∧ (∀ xs : List Json, xs ≠ [] → jsizeL xs ≤ N → ∀ (rest : List Char) (fuel : Nat),
        2 * jsizeL xs + 2 ≤ fuel →
        parseP fuel PMode.pe (jrenderElems xs ++ ']' :: rest) = some (PRes.re xs, rest))
    ∧ (∀ kvs : List (List Char × Json), kvs ≠ [] → jsizeM kvs ≤ N →
        ∀ (rest : List Char) (fuel : Nat), 2 * jsizeM kvs + 2 ≤ fuel →
        parseP fuel PMode.pm (jrenderMems kvs ++ cbrace :: rest) = some (PRes.rm kvs, rest)) := by
  intro N
  induction N using Nat.strong_induction_on with
  | _ N IH =>
  refine ⟨?_, ?_, ?_⟩
  · -- values
    intro v hszN rest fuel hfuel hb
    have hpos := jsize_pos v
    obtain ⟨f, rfl⟩ : ∃ f, fuel = f + 1 := ⟨fuel - 1, by omega⟩
    cases v with
    | jnull =>
      rw [show jrender Json.jnull ++ rest = 'n' :: 'u' :: 'l' :: 'l' :: rest from rfl,
        parseP_step_null]
    | jbool b =>
      cases b with
      | true =>
        rw [show jrender (Json.jbool true) ++ rest = 't' :: 'r' :: 'u' :: 'e' :: rest from rfl,
          parseP_step_true]
      | false =>
        rw [show jrender (Json.jbool false) ++ rest
            = 'f' :: 'a' :: 'l' :: 's' :: 'e' :: rest from rfl,
          parseP_step_false]
    | jnum n => exact parseP_pv_num n rest (f + 1) (by omega) hb
    | jstr s =>
      rw [show jrender (Json.jstr s) ++ rest = '"' :: (escStr s ++ '"' :: rest) from by
        simp [jrender]]
      rw [parseP_step_str, parseStrRest_escStr]
      rfl
    | jarr xs =>
      cases xs with
      | nil =>
        rw [show jrender (Json.jarr []) ++ rest = '[' :: ']' :: rest from rfl,
          parseP_step_arr_nil]
      | cons x xs' =>
        rw [show jrender (Json.jarr (x :: xs')) ++ rest
            = '[' :: (jrenderElems (x :: xs') ++ ']' :: rest) from by simp [jrender]]
        rw [parseP_step_arr]
        obtain ⟨c, t0, hx, hcws, hcne⟩ := jrender_head_props x
        obtain ⟨S, hS⟩ := jrenderElems_factor x xs'
        have hE2 : jrenderElems (x :: xs') ++ ']' :: rest
            = c :: (t0 ++ (S ++ ']' :: rest)) := by
          rw [hS, hx]
          simp [List.append_assoc]
        rw [hE2, List.dropWhile_cons, if_neg (by simp [hcws])]
        dsimp only
        rw [if_neg hcne, hE2.symm]
        have hlt : jsizeL (x :: xs') < N := by
          have hs : jsize (Json.jarr (x :: xs')) = 1 + jsizeL (x :: xs') := rfl
          omega
        rw [(IH _ hlt).2.1 (x :: xs') (by simp) (le_refl _) rest f
          (by have hs : jsize (Json.jarr (x :: xs')) = 1 + jsizeL (x :: xs') := rfl; omega)]
    | jobj kvs =>
      cases kvs with
      | nil =>
        rw [show jrender (Json.jobj []) ++ rest = obrace :: cbrace :: rest from rfl,
          parseP_step_obj_nil]
      | cons kv t =>
        obtain ⟨k, v⟩ := kv
        rw [show jrender (Json.jobj ((k, v) :: t)) ++ rest
            = obrace :: (jrenderMems ((k, v) :: t) ++ cbrace :: rest) from by simp [jrender]]
        rw [parseP_step_obj]
        obtain ⟨t', ht'⟩ := jrenderMems_head k v t
        have hE2 : jrenderMems ((k, v) :: t) ++ cbrace :: rest
            = '"' :: (t' ++ cbrace :: rest) := by
          rw [ht']
          simp
        rw [hE2, List.dropWhile_cons, if_neg (by decide : ¬ (isJsonWsChar '"' = true))]
        dsimp only
        rw [if_neg (by decide : ¬ ('"' : Char) = cbrace), hE2.symm]
        have hlt : jsizeM ((k, v) :: t) < N := by
          have hs : jsize (Json.jobj ((k, v) :: t)) = 1 + jsizeM ((k, v) :: t) := rfl
          omega
        rw [(IH _ hlt).2.2 ((k, v) :: t) (by simp) (le_refl _) rest f
          (by have hs : jsize (Json.jobj ((k, v) :: t)) = 1 + jsizeM ((k, v) :: t) := rfl
              omega)]
  · -- array element lists
    intro xs hne hszN rest fuel hfuel
    obtain ⟨f, rfl⟩ : ∃ f, fuel = f + 1 := ⟨fuel - 1, by omega⟩
    cases xs with
    | nil => exact absurd rfl hne
    | cons x xs' =>
      rw [parseP_step_pe]
      cases xs' with
      | nil =>
        rw [show jrenderElems [x] ++ ']' :: rest = jrender x ++ ']' :: rest from rfl]
        have hlt : jsize x < N := by
          have hs : jsizeL [x] = jsize x + 1 + 0 := rfl
          omega
        rw [(IH _ hlt).1 x (le_refl _) (']' :: rest) f
          (by have hs : jsizeL [x] = jsize x + 1 + 0 := rfl
              omega) rfl]
        dsimp only
        rw [List.dropWhile_cons, if_neg (by decide : ¬ (isJsonWsChar ']' = true))]
        dsimp only
        rw [if_neg (by decide : ¬ (']' : Char) = ','), if_pos (rfl : (']' : Char) = ']')]
      | cons y t =>
        rw [show jrenderElems (x :: y :: t) ++ ']' :: rest
            = jrender x ++ (',' :: (jrenderElems (y :: t) ++ ']' :: rest)) from by
          rw [jrenderElems]
          simp [List.append_assoc]]
        have hlt : jsize x < N := by
          have hs : jsizeL (x :: y :: t) = jsize x + 1 + jsizeL (y :: t) := rfl
          omega
        rw [(IH _ hlt).1 x (le_refl _) (',' :: (jrenderElems (y :: t) ++ ']' :: rest)) f
          (by have hs : jsizeL (x :: y :: t) = jsize x + 1 + jsizeL (y :: t) := rfl
              omega) rfl]
        dsimp only
        rw [List.dropWhile_cons, if_neg (by decide : ¬ (isJsonWsChar ',' = true))]
        dsimp only
        rw [if_pos (rfl : (',' : Char) = ',')]
        have hlt2 : jsizeL (y :: t) < N := by
          have hs : jsizeL (x :: y :: t) = jsize x + 1 + jsizeL (y :: t) := rfl
          have hp := jsize_pos x
          omega
        rw [(IH _ hlt2).2.1 (y :: t) (by simp) (le_refl _) rest f
          (by have hs : jsizeL (x :: y :: t) = jsize x + 1 + jsizeL (y :: t) := rfl
              omega)]
  · -- object member lists
    intro kvs hne hszN rest fuel hfuel
    obtain ⟨f, rfl⟩ : ∃ f, fuel = f + 1 := ⟨fuel - 1, by omega⟩
    cases kvs with
    | nil => exact absurd rfl hne
    | cons kv t =>
      obtain ⟨k, v⟩ := kv
      cases t with
      | nil =>
        rw [show jrenderMems [(k, v)] ++ cbrace :: rest
            = '"' :: (escStr k ++ '"' :: (':' :: (jrender v ++ cbrace :: rest))) from by
          rw [jrenderMems]
          simp [List.append_assoc]]
        rw [parseP_step_pm, parseStrRest_escStr k (':' :: (jrender v ++ cbrace :: rest))]
        dsimp only
        rw [List.dropWhile_cons, if_neg (by decide : ¬ (isJsonWsChar ':' = true))]
        dsimp only
        rw [if_pos (rfl : (':' : Char) = ':')]
        have hlt : jsize v < N := by
          have hs : jsizeM [(k, v)] = jsize v + 1 + 0 := rfl
          omega
        rw [(IH _ hlt).1 v (le_refl _) (cbrace :: rest) f
          (by have hs : jsizeM [(k, v)] = jsize v + 1 + 0 := rfl
              omega) rfl]
        dsimp only
        rw [List.dropWhile_cons, if_neg (by decide : ¬ (isJsonWsChar cbrace = true))]
        dsimp only
        rw [if_neg (by decide : ¬ cbrace = ','), if_pos (rfl : cbrace = cbrace)]
      | cons m t2 =>
        rw [show jrenderMems ((k, v) :: m :: t2) ++ cbrace :: rest
            = '"' :: (escStr k ++ '"' :: (':' :: (jrender v
                ++ ',' :: (jrenderMems (m :: t2) ++ cbrace :: rest)))) from by
          rw [jrenderMems]
          simp [List.append_assoc]]
        rw [parseP_step_pm, parseStrRest_escStr k
          (':' :: (jrender v ++ ',' :: (jrenderMems (m :: t2) ++ cbrace :: rest)))]
        dsimp only
        rw [List.dropWhile_cons, if_neg (by decide : ¬ (isJsonWsChar ':' = true))]
        dsimp only
        rw [if_pos (rfl : (':' : Char) = ':')]
        have hlt : jsize v < N := by
          have hs : jsizeM ((k, v) :: m :: t2) = jsize v + 1 + jsizeM (m :: t2) := rfl
          omega
        rw [(IH _ hlt).1 v (le_refl _)
          (',' :: (jrenderMems (m :: t2) ++ cbrace :: rest)) f
          (by have hs : jsizeM ((k, v) :: m :: t2) = jsize v + 1 + jsizeM (m :: t2) := rfl
              omega) rfl]
        dsimp only
        rw [List.dropWhile_cons, if_neg (by decide : ¬ (isJsonWsChar ',' = true))]
        dsimp only
        rw [if_pos (rfl : (',' : Char) = ',')]
        have hlt2 : jsizeM (m :: t2) < N := by
          have hs : jsizeM ((k, v) :: m :: t2) = jsize v + 1 + jsizeM (m :: t2) := rfl
          have hp := jsize_pos v
          omega
        rw [(IH _ hlt2).2.2 (m :: t2) (by simp) (le_refl _) rest f
          (by have hs : jsizeM ((k, v) :: m :: t2) = jsize v + 1 + jsizeM (m :: t2) := rfl
              omega)]

theorem jparse_jrender (v : Json) : jparse (jrender v) = some v := by
  unfold jparse
  have h := (parseP_jrender (jsize v)).1 v (le_refl _) [] (2 * (jrender v).length + 4)
    (by have := jsize_le_length v; omega) rfl
  rw [List.append_nil] at h
  rw [h]
  rfl

/-! ## Context lemmas: the sanitizer isolates a rendered payload -/

theorem dropWhile_append_headneg {p : Char → Bool} :
    ∀ (A : List Char) (b : Char) (t : List Char), p b = false →
      (A ++ b :: t).dropWhile p = A.dropWhile p ++ b :: t := by
  intro A
  induction A with
  | nil =>
    intro b t hb
    simp [List.dropWhile_cons, hb]
  | cons a A' ih =>
    intro b t hb
    rw [List.cons_append, List.dropWhile_cons, List.dropWhile_cons]
    by_cases ha : p a = true
    · rw [if_pos ha, if_pos ha]
      exact ih b t hb
    · rw [if_neg ha, if_neg ha]
      rfl

theorem dropTrailWhile_append_gen {p : Char → Bool} (X B : List Char)
    (hX : ∃ c t, X.reverse = c :: t ∧ p c = false) :
    dropTrailWhile p (X ++ B) = X ++ dropTrailWhile p B := by
  obtain ⟨c, t, hrev, hc⟩ := hX
  unfold dropTrailWhile
  rw [List.reverse_append, hrev, dropWhile_append_headneg _ c _ hc]
  rw [List.reverse_append, ← hrev, List.reverse_reverse]

theorem dropTrailWhile_append_ctx {p : Char → Bool} (A B R : List Char)
    (hR : ∃ c t, R.reverse = c :: t ∧ p c = false) :
    dropTrailWhile p (A ++ R ++ B) = A ++ R ++ dropTrailWhile p B := by
  obtain ⟨c, t, hrev, hc⟩ := hR
  exact dropTrailWhile_append_gen (A ++ R) B
    ⟨c, t ++ A.reverse, by rw [List.reverse_append, hrev, List.cons_append], hc⟩

theorem trimChars_ctx (A B R : List Char)
    (hhead : ∃ c t, R = c :: t ∧ isJsWsChar c = false)
    (hlast : ∃ c t, R.reverse = c :: t ∧ isJsWsChar c = false) :
    trimChars (A ++ R ++ B)
      = A.dropWhile isJsWsChar ++ R ++ dropTrailWhile isJsWsChar B := by
  obtain ⟨c, t, hR, hc⟩ := hhead
  unfold trimChars
  have h1 : (A ++ R ++ B).dropWhile isJsWsChar = A.dropWhile isJsWsChar ++ (R ++ B) := by
    rw [List.append_assoc, hR, List.cons_append]
    exact dropWhile_append_headneg A c _ hc
  rw [h1, ← List.append_assoc]
  exact dropTrailWhile_append_ctx _ B R hlast

theorem findIdx?_append_first {p : Char → Bool} :
    ∀ (A : List Char) (b : Char) (t : List Char), (∀ x ∈ A, p x = false) → p b = true →
      (A ++ b :: t).findIdx? p = some A.length := by
  intro A
  induction A with
  | nil =>
    intro b t _ hb
    simp [List.findIdx?_cons, hb]
  | cons a A' ih =>
    intro b t hA hb
    rw [List.cons_append, List.findIdx?_cons, hA a (by simp)]
    simp [ih b t (fun x hx => hA x (by simp [hx])) hb]

theorem extractSlice_ctx (P Q R : List Char)
    (hP : obrace ∉ P ∧ '[' ∉ P) (hQ : cbrace ∉ Q ∧ ']' ∉ Q)
    (hhead : ∃ t, (R = '[' :: t ∨ R = obrace :: t))
    (hlast : ∃ t c, R.reverse = c :: t ∧ isCloser c = true) :
    extractSlice (P ++ R ++ Q) = some R := by
  have hPno : ∀ x ∈ P, isOpener x = false := by
    intro x hx
    unfold isOpener
    have h1 : x ≠ '[' := fun he => hP.2 (he ▸ hx)
    have h2 : x ≠ obrace := fun he => hP.1 (he ▸ hx)
    simp [h1, h2]
  have hQno : ∀ x ∈ Q, isCloser x = false := by
    intro x hx
    unfold isCloser
    have h1 : x ≠ ']' := fun he => hQ.2 (he ▸ hx)
    have h2 : x ≠ cbrace := fun he => hQ.1 (he ▸ hx)
    simp [h1, h2]
  obtain ⟨t0, hR⟩ := hhead
  obtain ⟨t1, c1, hrev, hc1⟩ := hlast
  have hRne : R ≠ [] := by
    rcases hR with h | h <;> simp [h]
  have hfind : (P ++ R ++ Q).findIdx? isOpener = some P.length := by
    rw [List.append_assoc]
    rcases hR with h | h <;> rw [h, List.cons_append]
    · exact findIdx?_append_first P '[' _ hPno (by decide)
    · exact findIdx?_append_first P obrace _ hPno (by decide)
  have hlastidx : lastCloserIdx (P ++ R ++ Q) = some (P.length + R.length - 1) := by
    unfold lastCloserIdx
    rw [List.reverse_append, List.reverse_append, hrev, List.cons_append]
    rw [findIdx?_append_first Q.reverse c1 _
      (fun x hx => hQno x (List.mem_reverse.1 hx)) hc1]
    simp only [List.length_append, List.length_reverse]
    have hlenrev : R.length = t1.length + 1 := by
      have h2 := congrArg List.length hrev
      simp at h2
      omega
    show some (P.length + R.length + Q.length - 1 - Q.length) = some (P.length + R.length - 1)
    congr 1
    omega
  unfold extractSlice
  rw [hfind, hlastidx]
  dsimp only
  have hRlen : 1 ≤ R.length := by
    rcases hR with h | h <;> simp [h]
  have hmin : min P.length (P.length + R.length - 1 + 1) = P.length := by omega
  have hmax : max P.length (P.length + R.length - 1 + 1) = P.length + R.length := by omega
  rw [hmin, hmax]
  have hdrop : (P ++ R ++ Q).drop P.length = R ++ Q := by
    rw [List.append_assoc]
    simp [List.drop_left]
  rw [hdrop]
  have htake : (R ++ Q).take (P.length + R.length - P.length) = R := by
    have : P.length + R.length - P.length = R.length := by omega
    rw [this]
    simp [List.take_left]
  rw [htake]

theorem structured_head {v : Json} (hv : isStructured v = true) :
    ∃ t, jrender v = '[' :: t ∨ jrender v = obrace :: t := by
  cases v with
  | jarr xs => exact ⟨jrenderElems xs ++ [']'], Or.inl rfl⟩
  | jobj kvs => exact ⟨jrenderMems kvs ++ [cbrace], Or.inr rfl⟩
  | jnull => simp [isStructured] at hv
  | jbool b => simp [isStructured] at hv
  | jnum n => simp [isStructured] at hv
  | jstr s => simp [isStructured] at hv

theorem structured_last {v : Json} (hv : isStructured v = true) :
    ∃ t c, (jrender v).reverse = c :: t ∧ isCloser c = true := by
  cases v with
  | jarr xs =>
    refine ⟨(jrenderElems xs).reverse ++ ['['], ']', ?_, by decide⟩
    show ( '[' :: (jrenderElems xs ++ [']'])).reverse = _
    simp
  | jobj kvs =>
    refine ⟨(jrenderMems kvs).reverse ++ [obrace], cbrace, ?_, by decide⟩
    show (obrace :: (jrenderMems kvs ++ [cbrace])).reverse = _
    simp
  | jnull => simp [isStructured] at hv
  | jbool b => simp [isStructured] at hv
  | jnum n => simp [isStructured] at hv
  | jstr s => simp [isStructured] at hv

theorem three_le_of_take3 (A : List Char) (b : Char) (t : List Char)
    (hbt : b ∉ fenceTicks) (h : (A ++ b :: t).take 3 = fenceTicks) :
    3 ≤ A.length := by
  match A with
  | [] =>
    exfalso
    apply hbt
    rw [← h]
    simp
  | [x] =>
    exfalso
    apply hbt
    rw [← h]
    simp
  | [x, y] =>
    exfalso
    apply hbt
    rw [← h]
    simp
  | x :: y :: z :: A' => simp

theorem take3_reverse_of_drop (l : List Char)
    (h : l.drop (l.length - 3) = fenceTicks) : l.reverse.take 3 = fenceTicks := by
  have hsplit := List.take_append_drop (l.length - 3) l
  rw [← hsplit, List.reverse_append, h]
  rw [show fenceTicks.reverse = fenceTicks from rfl]
  rw [show (3 : Nat) = fenceTicks.length from rfl]
  exact List.take_left _ _

theorem unfence_ctx (P1 Q1 R : List Char)
    (hP : obrace ∉ P1 ∧ '[' ∉ P1) (hQ : cbrace ∉ Q1 ∧ ']' ∉ Q1)
    (hhead : ∃ t, R = '[' :: t ∨ R = obrace :: t)
    (hlast : ∃ t c, R.reverse = c :: t ∧ isCloser c = true) :
    ∃ P2 Q2, unfence (P1 ++ R ++ Q1) = P2 ++ R ++ Q2
      ∧ obrace ∉ P2 ∧ '[' ∉ P2 ∧ cbrace ∉ Q2 ∧ ']' ∉ Q2 := by
  obtain ⟨rt, hR⟩ := hhead
  obtain ⟨t1, c1, hrev, hc1⟩ := hlast
  have hRhead : ∃ rh rt', R = rh :: rt' ∧ rh ∉ fenceTicks
      ∧ isWordChar rh = false ∧ isJsWsChar rh = false := by
    rcases hR with h | h
    · exact ⟨'[', rt, h, by decide, by decide, by decide⟩
    · exact ⟨obrace, rt, h, by decide, by decide, by decide⟩
  obtain ⟨rh, rt', hRc, hrb, hrw, hrws⟩ := hRhead
  have hc1f : c1 = ']' ∨ c1 = cbrace := by
    unfold isCloser at hc1
    simp at hc1
    tauto
  have hc1b : c1 ∉ fenceTicks := by
    rcases hc1f with rfl | rfl <;> decide
  have hc1ws : isJsWsChar c1 = false := by
    rcases hc1f with rfl | rfl <;> decide
  unfold unfence fenceInner
  by_cases hcond : 6 ≤ (P1 ++ R ++ Q1).length
      ∧ (P1 ++ R ++ Q1).take 3 = fenceTicks
      ∧ (P1 ++ R ++ Q1).drop ((P1 ++ R ++ Q1).length - 3) = fenceTicks
  case neg =>
    rw [if_neg hcond]
    exact ⟨P1, Q1, rfl, hP.1, hP.2, hQ.1, hQ.2⟩
  case pos =>
    rw [if_pos hcond]
    dsimp only
    obtain ⟨hlen6, htake3, hdrop3⟩ := hcond
    have hP1len : 3 ≤ P1.length := by
      apply three_le_of_take3 P1 rh (rt' ++ Q1) hrb
      rw [show P1 ++ rh :: (rt' ++ Q1) = P1 ++ (rh :: rt') ++ Q1 from by simp, ← hRc]
      exact htake3
    have hsrev : (P1 ++ R ++ Q1).reverse = Q1.reverse ++ c1 :: (t1 ++ P1.reverse) := by
      rw [List.reverse_append, List.reverse_append, hrev]
      simp
    have hQ1len : 3 ≤ Q1.length := by
      have h3 := three_le_of_take3 Q1.reverse c1 (t1 ++ P1.reverse) hc1b
        (by rw [← hsrev]; exact take3_reverse_of_drop _ hdrop3)
      simpa using h3
    have hslen : (P1 ++ R ++ Q1).length = P1.length + R.length + Q1.length := by
      rw [List.length_append, List.length_append]
    have hcore : ((P1 ++ R ++ Q1).drop 3).take ((P1 ++ R ++ Q1).length - 6)
        = (P1.drop 3) ++ R ++ Q1.take (Q1.length - 3) := by
      have hdrop : (P1 ++ R ++ Q1).drop 3 = P1.drop 3 ++ (R ++ Q1) := by
        rw [List.append_assoc]
        exact List.drop_append_of_le_length (by omega)
      rw [hdrop, ← List.append_assoc, List.take_append_eq_append_take]
      have hlen1 : (P1.drop 3 ++ R).length = P1.length - 3 + R.length := by simp
      rw [List.take_of_length_le (by rw [hlen1]; omega)]
      have harith : (P1 ++ R ++ Q1).length - 6 - (P1.drop 3 ++ R).length
          = Q1.length - 3 := by
        rw [hlen1, hslen]
        omega
      rw [harith, List.append_assoc]
    rw [hcore]
    have hword : (P1.drop 3 ++ R ++ Q1.take (Q1.length - 3)).dropWhile isWordChar
        = (P1.drop 3).dropWhile isWordChar ++ R ++ Q1.take (Q1.length - 3) := by
      rw [List.append_assoc, hRc, List.cons_append]
      rw [dropWhile_append_headneg _ rh _ hrw]
      rw [← List.cons_append, ← hRc, ← List.append_assoc]
    rw [hword]
    have hwsd : ((P1.drop 3).dropWhile isWordChar ++ R ++ Q1.take (Q1.length - 3)).dropWhile
          isJsWsChar
        = ((P1.drop 3).dropWhile isWordChar).dropWhile isJsWsChar ++ R
            ++ Q1.take (Q1.length - 3) := by
      rw [List.append_assoc, hRc, List.cons_append]
      rw [dropWhile_append_headneg _ rh _ hrws]
      rw [← List.cons_append, ← hRc, ← List.append_assoc]
    rw [hwsd]
    rw [dropTrailWhile_append_ctx _ _ R ⟨c1, t1, hrev, hc1ws⟩]
    have hg2ne : ((P1.drop 3).dropWhile isWordChar).dropWhile isJsWsChar ++ R
        ++ dropTrailWhile isJsWsChar (Q1.take (Q1.length - 3)) ≠ [] := by
      rw [hRc]
      simp
    rw [if_neg hg2ne]
    rw [trimChars_ctx _ _ R ⟨rh, rt', hRc, hrws⟩ ⟨c1, t1, hrev, hc1ws⟩]
    refine ⟨_, _, rfl, ?_, ?_, ?_, ?_⟩
    · intro hx
      exact hP.1 ((List.drop_sublist _ _).mem
        ((List.dropWhile_sublist _).mem ((List.dropWhile_sublist _).mem
          ((List.dropWhile_sublist _).mem hx))))
    · intro hx
      exact hP.2 ((List.drop_sublist _ _).mem
        ((List.dropWhile_sublist _).mem ((List.dropWhile_sublist _).mem
          ((List.dropWhile_sublist _).mem hx))))
    · intro hx
      exact hQ.1 ((List.take_sublist _ _).mem
        (mem_dropTrailWhile (mem_dropTrailWhile hx)))
    · intro hx
      exact hQ.2 ((List.take_sublist _ _).mem
        (mem_dropTrailWhile (mem_dropTrailWhile hx)))

/-- C2 counterexample: the trailing-comma repair rewrites inside string
literals. Serializing the object with single member `"a"` mapped to the
two-character string `,​` followed by a closing brace, then parsing the
very serialization (no wrapping at all), yields an object whose member
string lost its comma: the parse succeeds but the value is not deep-equal
to the original, so the round-trip claim fails. -/
theorem C2_counterexample :
    parseJsonResponse (jrender (Json.jobj [(("a").data, Json.jstr ((",\x7d").data))]))
      = some (Json.jobj [(("a").data, Json.jstr (("\x7d").data))])
    ∧ Json.jobj [(("a").data, Json.jstr (("\x7d").data))]
      ≠ Json.jobj [(("a").data, Json.jstr ((",\x7d").data))] := by
  constructor
  · rfl
  · intro h
    have h2 := congrArg (fun j => match j with
      | Json.jobj ((_, Json.jstr s) :: _) => s.length
      | _ => 0) h
    simp at h2

/-- C2 amended: for every JSON value of object or array top-level shape
whose serialization the trailing-comma repair leaves unchanged, wrapping
the serialization in any context whose prefix contains no structural
opener and whose suffix contains no structural closer (covering a fenced
code block, surrounding prose, both, or neither) and passing the result to
`parseJsonResponse` returns a value deep-equal to the original. -/
theorem C2_parseJsonResponse_roundtrip (v : Json) (pre post : List Char)
    (hv : isStructured v = true)
    (hpre : obrace ∉ pre ∧ '[' ∉ pre)
    (hpost : cbrace ∉ post ∧ ']' ∉ post)
    (hclean : cleanupCommas (jrender v) = jrender v) :
    parseJsonResponse (pre ++ jrender v ++ post) = some v := by
  have hhead := structured_head hv
  have hlastf := structured_last hv
  have hheadws : ∃ c t, jrender v = c :: t ∧ isJsWsChar c = false := by
    obtain ⟨t, h | h⟩ := hhead
    · exact ⟨'[', t, h, by decide⟩
    · exact ⟨obrace, t, h, by decide⟩
  have hlastws : ∃ c t, (jrender v).reverse = c :: t ∧ isJsWsChar c = false := by
    obtain ⟨t, c, h, hc⟩ := hlastf
    have hcc : c = ']' ∨ c = cbrace := by
      unfold isCloser at hc
      simp at hc
      tauto
    exact ⟨c, t, h, by rcases hcc with rfl | rfl <;> decide⟩
  have hne : pre ++ jrender v ++ post ≠ [] := by
    obtain ⟨c, t, hj, _⟩ := hheadws
    intro habs
    have hlen := congrArg List.length habs
    simp [hj] at hlen
  unfold parseJsonResponse
  rw [if_neg hne]
  rw [trimChars_ctx pre post (jrender v) hheadws hlastws]
  obtain ⟨P2, Q2, hunf, hp1, hp2, hq1, hq2⟩ :=
    unfence_ctx (pre.dropWhile isJsWsChar) (dropTrailWhile isJsWsChar post) (jrender v)
      ⟨fun hx => hpre.1 ((List.dropWhile_sublist _).mem hx),
       fun hx => hpre.2 ((List.dropWhile_sublist _).mem hx)⟩
      ⟨fun hx => hpost.1 (mem_dropTrailWhile hx),
       fun hx => hpost.2 (mem_dropTrailWhile hx)⟩
      hhead hlastf
  rw [hunf]
  rw [extractSlice_ctx P2 Q2 (jrender v) ⟨hp1, hp2⟩ ⟨hq1, hq2⟩ hhead hlastf]
  dsimp only
  rw [hclean, jparse_jrender]

/-- C2 witness: the amended theorem applied to the object with member
`"a"` mapped to 1, wrapped in prose plus a fenced json code block. -/
theorem C2_parseJsonResponse_roundtrip_witness :
    parseJsonResponse (("Here is the result:\n```json\n").data
        ++ jrender (Json.jobj [(("a").data, Json.jnum 1)])
        ++ ("\n```\nThanks!").data)
      = some (Json.jobj [(("a").data, Json.jnum 1)]) :=
  C2_parseJsonResponse_roundtrip (Json.jobj [(("a").data, Json.jnum 1)])
    (("Here is the result:\n```json\n").data) (("\n```\nThanks!").data)
    (by decide) (by decide) (by decide) (by rfl)
